import Mathlib

/-!
Verification of the propositional-logic truth-table generator in
`src/LogicTablePY.py` (tokenizer, recursive-descent parser, AST evaluation and
rendering, premise splitter, sub-expression collector, truth-table engine).

The Python source is shallowly embedded: each Python function becomes an
executable Lean definition over `List Char` / `List String` / the `Expr` tree.
Python exceptions become `Option`/`Except` results.  The parser's `while`
loops and mutual recursion are modelled with an explicit fuel parameter that
strictly decreases on every call; `parseTokens` supplies fuel
`10 * tokens.length + 10`, which is proved (and used) to be sufficient for all
inputs appearing in the theorems below.
-/

namespace LogicTable

/-- The AST of `src/LogicTablePY.py` (classes `Var`, `Not`, `And`, `Or`,
`Implies`, `Iff`).  Python is untyped and `Parser.parse_atom` stores the result
of `peek()` — which is `None` once the position runs past the end of the token
list — directly in `Var`, so the embedded variable name has type
`Option String`. -/
inductive Expr : Type
  | var (name : Option String)
  | not (operand : Expr)
  | and (left right : Expr)
  | or (left right : Expr)
  | implies (left right : Expr)
  | iff (left right : Expr)
  deriving DecidableEq, Repr

/-- Embeds the `evaluate(self, context)` methods (src lines 27-28, 41-42,
61-62, 69-70, 77-78, 85-86).  The Python context is a dict; a missing key
raises `KeyError`, modelled by `Option`.  Python's `and`/`or` short-circuit:
in `And`, if the left operand is `False` the right one is never evaluated, and
dually for `Or` and for the `not ... or ...` in `Implies`; `Iff` evaluates
both sides of `==`. -/
def Expr.evaluate (context : List (Option String × Bool)) : Expr → Option Bool
  | .var name => List.lookup name context
  | .not e => (e.evaluate context).map (fun b => !b)
  | .and l r => (l.evaluate context).bind fun lv =>
      if lv then r.evaluate context else some false
  | .or l r => (l.evaluate context).bind fun lv =>
      if lv then some true else r.evaluate context
  | .implies l r => (l.evaluate context).bind fun lv =>
      if lv then r.evaluate context else some true
  | .iff l r => (l.evaluate context).bind fun lv =>
      (r.evaluate context).map fun rv => lv == rv

/-- Embeds the `vars(self)` methods (src lines 30-31, 44-45, 56-57).  Python
returns a set of names; sets are modelled as duplicate-free lists, with
`BinOp.vars` using `List.union` for `self.left.vars().union(self.right.vars())`. -/
def Expr.vars : Expr → List (Option String)
  | .var name => [name]
  | .not e => e.vars
  | .and l r => l.vars ∪ r.vars
  | .or l r => l.vars ∪ r.vars
  | .implies l r => l.vars ∪ r.vars
  | .iff l r => l.vars ∪ r.vars

/-- Embeds the `__str__` methods (src lines 33-34, 47-48, 64-65, 72-73, 80-81,
88-89).  `Var.__str__` returns `self.name`; when that name is the `None`
stored by `parse_atom` at end of stream, `str(...)` raises `TypeError`
(`__str__ returned non-string`), so rendering is modelled as `Option String`,
failing exactly on trees containing `Var(None)`. -/
def Expr.str : Expr → Option String
  | .var name => name
  | .not e => (Expr.str e).map fun s => "~" ++ s
  | .and l r => (Expr.str l).bind fun ls => (Expr.str r).map fun rs =>
      "(" ++ ls ++ " & " ++ rs ++ ")"
  | .or l r => (Expr.str l).bind fun ls => (Expr.str r).map fun rs =>
      "(" ++ ls ++ " | " ++ rs ++ ")"
  | .implies l r => (Expr.str l).bind fun ls => (Expr.str r).map fun rs =>
      "(" ++ ls ++ " -> " ++ rs ++ ")"
  | .iff l r => (Expr.str l).bind fun ls => (Expr.str r).map fun rs =>
      "(" ++ ls ++ " <-> " ++ rs ++ ")"

/-! ### Tokenizer

`TOKEN_REGEX = r'\s*(~|&|\||->|<->|\(|\)|[A-Za-z][A-Za-z0-9_]*)\s*'` and
`tokenize(s) = re.findall(TOKEN_REGEX, s)` (src lines 94-97).  `re.findall`
scans left to right, returns the captured group of each non-overlapping
match, and silently skips characters at which no alternative matches.  That
scan is embedded as a character-level scanner; the regex alternatives are
mutually exclusive on their first character, so ordered alternation reduces
to the case analysis below. -/

/-- Character class `\s` of the token regex (Python ASCII whitespace). -/
def isSpaceChar (c : Char) : Bool :=
  c = ' ' || c = '\t' || c = '\n' || c = '\r' || c = '\x0b' || c = '\x0c'

/-- Character class `[A-Za-z]` (first character of an identifier). -/
def isAlphaChar (c : Char) : Bool :=
  ('A' ≤ c && c ≤ 'Z') || ('a' ≤ c && c ≤ 'z')

/-- Character class `[A-Za-z0-9_]` (continuation of an identifier). -/
def isIdentChar (c : Char) : Bool :=
  isAlphaChar c || ('0' ≤ c && c ≤ '9') || c = '_'

/-- Splits a character list into its maximal leading run of identifier
continuation characters and the rest (the greedy `[A-Za-z0-9_]*` of the token
regex). -/
def identSpan : List Char → List Char × List Char
  | [] => ([], [])
  | c :: cs =>
    if isIdentChar c then
      let s := identSpan cs
      (c :: s.1, s.2)
    else ([], c :: cs)

/-- Fuelled core of `tokenize`: one step per scanned position, so any fuel
`≥ cs.length` is enough (each step consumes at least one character). -/
def tokenizeAux : Nat → List Char → List String
  | 0, _ => []
  | _ + 1, [] => []
  | f + 1, c :: cs =>
    if isSpaceChar c then tokenizeAux f cs
    else if c = '~' then "~" :: tokenizeAux f cs
    else if c = '&' then "&" :: tokenizeAux f cs
    else if c = '|' then "|" :: tokenizeAux f cs
    else if c = '(' then "(" :: tokenizeAux f cs
    else if c = ')' then ")" :: tokenizeAux f cs
    else if c = '-' then
      if cs.head? = some '>' then "->" :: tokenizeAux f cs.tail
      else tokenizeAux f cs
    else if c = '<' then
      if cs.head? = some '-' ∧ cs.tail.head? = some '>' then
        "<->" :: tokenizeAux f cs.tail.tail
      else tokenizeAux f cs
    else if isAlphaChar c then
      let s := identSpan cs
      String.mk (c :: s.1) :: tokenizeAux f s.2
    else tokenizeAux f cs

/-- Embeds `tokenize` (src lines 96-97). -/
def tokenize (s : String) : List String :=
  tokenizeAux s.data.length s.data

/-! ### Parser

Class `Parser` (src lines 102-169).  The token cursor `self.pos` only moves
forward and `peek()` returns `None` from every position past the end, so the
state is modelled by the list of remaining tokens; `consume()` on an empty
remainder models `pos` moving past the end and returns `None`.  The one
`raise ValueError("Expected closing parenthesis")` (src line 164) becomes an
`Except.error`; the fuel-exhaustion error `"fuel"` is unreachable for the fuel
supplied by `parseTokens` on the inputs appearing in the theorems below. -/

/-- Result of one parsing routine: the parsed expression and the remaining
tokens, or a raised error. -/
abbrev ParseResult := Except String (Expr × List String)

mutual

/-- Embeds `Parser.parse_atom` (src lines 158-169). -/
def parse_atom : Nat → List String → ParseResult
  | 0, _ => .error "fuel"
  | f + 1, ts =>
    match ts with
    | "(" :: rest =>
      match parse_iff f rest with
      | .ok (e, ts1) =>
        match ts1 with
        | ")" :: rest1 => .ok (e, rest1)
        | _ => .error "Expected closing parenthesis"
      | .error m => .error m
    | t :: rest => .ok (.var (some t), rest)
    | [] => .ok (.var none, [])

/-- Embeds `Parser.parse_not` (src lines 150-156). -/
def parse_not : Nat → List String → ParseResult
  | 0, _ => .error "fuel"
  | f + 1, ts =>
    match ts with
    | "~" :: rest =>
      match parse_not f rest with
      | .ok (e, ts1) => .ok (.not e, ts1)
      | .error m => .error m
    | _ => parse_atom f ts

/-- The `while self.peek() == "&"` loop of `Parser.parse_and` (src lines
144-147), with `left` as accumulator. -/
def andLoop : Nat → Expr → List String → ParseResult
  | 0, _, _ => .error "fuel"
  | f + 1, left, ts =>
    match ts with
    | "&" :: rest =>
      match parse_not f rest with
      | .ok (right, ts1) => andLoop f (.and left right) ts1
      | .error m => .error m
    | _ => .ok (left, ts)

/-- Embeds `Parser.parse_and` (src lines 142-148). -/
def parse_and : Nat → List String → ParseResult
  | 0, _ => .error "fuel"
  | f + 1, ts =>
    match parse_not f ts with
    | .ok (left, ts1) => andLoop f left ts1
    | .error m => .error m

/-- The `while self.peek() == "|"` loop of `Parser.parse_or` (src lines
136-139). -/
def orLoop : Nat → Expr → List String → ParseResult
  | 0, _, _ => .error "fuel"
  | f + 1, left, ts =>
    match ts with
    | "|" :: rest =>
      match parse_and f rest with
      | .ok (right, ts1) => orLoop f (.or left right) ts1
      | .error m => .error m
    | _ => .ok (left, ts)

/-- Embeds `Parser.parse_or` (src lines 134-140). -/
def parse_or : Nat → List String → ParseResult
  | 0, _ => .error "fuel"
  | f + 1, ts =>
    match parse_and f ts with
    | .ok (left, ts1) => orLoop f left ts1
    | .error m => .error m

/-- The `while self.peek() == "->"` loop of `Parser.parse_implies` (src lines
128-131). -/
def impliesLoop : Nat → Expr → List String → ParseResult
  | 0, _, _ => .error "fuel"
  | f + 1, left, ts =>
    match ts with
    | "->" :: rest =>
      match parse_or f rest with
      | .ok (right, ts1) => impliesLoop f (.implies left right) ts1
      | .error m => .error m
    | _ => .ok (left, ts)

/-- Embeds `Parser.parse_implies` (src lines 126-132). -/
def parse_implies : Nat → List String → ParseResult
  | 0, _ => .error "fuel"
  | f + 1, ts =>
    match parse_or f ts with
    | .ok (left, ts1) => impliesLoop f left ts1
    | .error m => .error m

/-- The `while self.peek() == "<->"` loop of `Parser.parse_iff` (src lines
120-123). -/
def iffLoop : Nat → Expr → List String → ParseResult
  | 0, _, _ => .error "fuel"
  | f + 1, left, ts =>
    match ts with
    | "<->" :: rest =>
      match parse_implies f rest with
      | .ok (right, ts1) => iffLoop f (.iff left right) ts1
      | .error m => .error m
    | _ => .ok (left, ts)

/-- Embeds `Parser.parse_iff` (src lines 118-124). -/
def parse_iff : Nat → List String → ParseResult
  | 0, _ => .error "fuel"
  | f + 1, ts =>
    match parse_implies f ts with
    | .ok (left, ts1) => iffLoop f left ts1
    | .error m => .error m

end

/-- Embeds `Parser(tokens).parse()` (src lines 115-116): `parse` is
`parse_iff` on the whole token list.  The fuel `10 * ts.length + 10` bounds
the call depth of the Python recursion. -/
def parseTokens (ts : List String) : ParseResult :=
  parse_iff (10 * ts.length + 10) ts

/-- The `Parser(tokenize(p)).parse()` pipeline used by the main program (src
lines 299-300).  Python discards any leftover tokens after a complete parse,
so only the expression is kept. -/
def parseFormula (s : String) : Except String Expr :=
  match parseTokens (tokenize s) with
  | .ok (e, _) => .ok e
  | .error m => .error m

instance : DecidableEq (Except String (Expr × List String)) := fun a b =>
  match a, b with
  | .ok x, .ok y =>
    if h : x = y then .isTrue (by rw [h]) else .isFalse (by intro hh; cases hh; exact h rfl)
  | .error x, .error y =>
    if h : x = y then .isTrue (by rw [h]) else .isFalse (by intro hh; cases hh; exact h rfl)
  | .ok _, .error _ => .isFalse (by intro hh; cases hh)
  | .error _, .ok _ => .isFalse (by intro hh; cases hh)

instance : DecidableEq (Except String Expr) := fun a b =>
  match a, b with
  | .ok x, .ok y =>
    if h : x = y then .isTrue (by rw [h]) else .isFalse (by intro hh; cases hh; exact h rfl)
  | .error x, .error y =>
    if h : x = y then .isTrue (by rw [h]) else .isFalse (by intro hh; cases hh; exact h rfl)
  | .ok _, .error _ => .isFalse (by intro hh; cases hh)
  | .error _, .ok _ => .isFalse (by intro hh; cases hh)

/-! ### Premise splitter

`split_premises(statement)` (src lines 174-214): a character-indexed `while`
loop over the statement, tracking parenthesis `depth`, collecting `parts`, and
returning `(parts, conclusion)` on the first depth-zero `therefore`/`|-`, or
just `parts` otherwise.  Python string slices `statement[a:b]`, `.startswith`
and `.strip()` are modelled on `List Char` (Lean's built-in `String.trim`
does not reduce in the kernel, and Python `str.strip()` strips the whitespace
characters modelled by `isSpaceChar`). -/

/-- Result of `split_premises`: the Python function returns either a tuple
`(premises, conclusion)` or a bare list of premises. -/
inductive SplitResult : Type
  | withConclusion (premises : List String) (conclusion : String)
  | noConclusion (premises : List String)
  deriving DecidableEq, Repr

/-- Python `s.strip()` on a character list. -/
def stripChars (cs : List Char) : String :=
  String.mk (((cs.dropWhile isSpaceChar).reverse.dropWhile isSpaceChar).reverse)

/-- Python `statement[a:b].strip()`. -/
def sliceStrip (stmt : List Char) (a b : Nat) : String :=
  stripChars ((stmt.drop a).take (b - a))

/-- Python `statement.startswith(pat, i)`. -/
def startsWithAt (stmt pat : List Char) (i : Nat) : Bool :=
  (stmt.drop i).take pat.length == pat

/-- The `while i < len(statement)` loop of `split_premises` (src lines
185-208) followed by its tail handling (src lines 210-214).  One fuel unit is
spent per iteration; the initial call passes `stmt.length` fuel at `i = 0`, so
fuel runs out exactly when `i` reaches `stmt.length` and both the fuel-zero
case and the `i ≥ length` case perform the after-loop tail handling. -/
def splitLoop (stmt : List Char) : Nat → Nat → Int → Nat → List String → SplitResult
  | 0, _, _, start, parts =>
    let tail := sliceStrip stmt start stmt.length
    if tail = "" then .noConclusion parts else .noConclusion (parts ++ [tail])
  | f + 1, i, depth, start, parts =>
    if i < stmt.length then
      let c := stmt.getD i ' '
      let depth1 := if c = '(' then depth + 1 else if c = ')' then depth - 1 else depth
      if depth1 = 0 then
        if startsWithAt stmt "therefore".data i then
          .withConclusion (parts ++ [sliceStrip stmt start i])
            (stripChars (stmt.drop (i + 9)))
        else if startsWithAt stmt "|-".data i then
          .withConclusion (parts ++ [sliceStrip stmt start i])
            (stripChars (stmt.drop (i + 2)))
        else if c = ',' then
          splitLoop stmt f (i + 1) depth1 (i + 1) (parts ++ [sliceStrip stmt start i])
        else splitLoop stmt f (i + 1) depth1 start parts
      else splitLoop stmt f (i + 1) depth1 start parts
    else
      let tail := sliceStrip stmt start stmt.length
      if tail = "" then .noConclusion parts else .noConclusion (parts ++ [tail])

/-- Embeds `split_premises` (src lines 174-214). -/
def split_premises (statement : String) : SplitResult :=
  splitLoop statement.data statement.data.length 0 0 0 []

/-! ### Sub-expression collector -/

/-- Embeds `collect_subexpressions` (src lines 219-239).  In the source the
accumulated list is deduplicated by Python object identity (`expr is node`);
the expression values this program builds are strict trees whose nodes are
each constructed freshly (`Parser` and `and_all` never alias a node), so no
node is identical to any other node of the tree and the identity check never
fires.  The shallow tree embedding therefore accumulates unconditionally;
structurally equal but separately constructed sub-trees are kept as distinct
entries exactly as the identity check keeps them. -/
def collect_subexpressions (e : Expr) (collected : List Expr) : List Expr :=
  match e with
  | .var _ => collected
  | .not op => collect_subexpressions op collected ++ [e]
  | .and l r => collect_subexpressions r (collect_subexpressions l collected) ++ [e]
  | .or l r => collect_subexpressions r (collect_subexpressions l collected) ++ [e]
  | .implies l r => collect_subexpressions r (collect_subexpressions l collected) ++ [e]
  | .iff l r => collect_subexpressions r (collect_subexpressions l collected) ++ [e]

/-- Embeds `and_all` (src lines 243-247); requires a nonempty list in Python
(`exprs[0]` raises `IndexError` on `[]`), modelled by taking head and tail. -/
def and_all (head : Expr) (tail : List Expr) : Expr :=
  tail.foldl (fun result e => .and result e) head

/-! ### Truth-table engine

`truth_table_multiple(exprs)` (src lines 252-281).  The printed table is
modelled by the list of its rows, each row the list of cell strings in print
order (variable columns, premise columns, `ALL TRUE` column); the header line
and column-width centring are display formatting.  Python's
`sorted(set().union(*(e.vars() for e in exprs)))` sorts variable names in
code-point lexicographic order; `sorted` raises `TypeError` when the set mixes
`None` with strings, so the embedding's total order on `Option String` (which
puts `none` first) is faithful only on variable sets that do not mix `none`
with names — every theorem below that touches this code path assumes no
`none` variables. -/

/-- Code-point lexicographic order on character lists (Python string `<=`). -/
def charListLe : List Char → List Char → Bool
  | [], _ => true
  | _ :: _, [] => false
  | a :: as, b :: bs => if a = b then charListLe as bs else decide (a < b)

/-- The sorting order used for variable names: `none` first, then strings in
code-point lexicographic order. -/
def nameLe (a b : Option String) : Bool :=
  match a, b with
  | none, _ => true
  | some _, none => false
  | some x, some y => charListLe x.data y.data

/-- Propositional form of `nameLe`, for `List.insertionSort`. -/
def nameRel (a b : Option String) : Prop := nameLe a b = true

instance : DecidableRel nameRel := fun a b => instDecidableEqBool (nameLe a b) true

/-- Python `sorted(...)` on a duplicate-free list of variable names
(`sorted` is a stable comparison sort; on a duplicate-free list any
comparison sort returns the unique ordered enumeration). -/
def sortNames (l : List (Option String)) : List (Option String) :=
  List.insertionSort nameRel l

/-- Python `set().union(*(e.vars() for e in exprs))` (src line 254). -/
def unionVars (exprs : List Expr) : List (Option String) :=
  exprs.foldl (fun acc e => acc ∪ e.vars) []

/-- The sorted variable list `variables` of `truth_table_multiple`
(src line 254). -/
def tableVars (exprs : List Expr) : List (Option String) :=
  sortNames (unionVars exprs)

/-- Embeds `itertools.product([False, True], repeat=n)` (src line 263): all
`n`-bit rows in standard binary counting order, first coordinate most
significant, `False` before `True`. -/
def boolProduct : Nat → List (List Bool)
  | 0 => [[]]
  | n + 1 =>
    (boolProduct n).map (fun row => false :: row) ++
      (boolProduct n).map (fun row => true :: row)

/-- Python `"T" if b else "F"` (src lines 269, 276, 279). -/
def cellTF (b : Bool) : String := if b then "T" else "F"

/-- Maps a fallible function over a list, propagating the first failure
(a Python `for` loop that appends one result per element and lets an
exception escape). -/
def optionMapList (f : α → Option β) : List α → Option (List β)
  | [] => some []
  | a :: l => (f a).bind fun b => (optionMapList f l).map fun bs => b :: bs

/-- One row of `truth_table_multiple` (src lines 264-281) for the assignment
`values`: variable cells, then one cell per premise, then the `ALL TRUE`
cell; `env = dict(zip(variables, values))` and dict lookup failure
(`KeyError`) is propagated as `none`. -/
def tableRow (vlist : List (Option String)) (exprs : List Expr)
    (values : List Bool) : Option (List String) :=
  let env := vlist.zip values
  (optionMapList (fun v => List.lookup v env) vlist).bind fun varVals =>
    (optionMapList (fun e => Expr.evaluate env e) exprs).map fun premiseVals =>
      varVals.map cellTF ++ premiseVals.map cellTF ++ [cellTF (premiseVals.all id)]

/-- Embeds the pure content of `truth_table_multiple` (src lines 252-281):
the list of printed rows.  The header line (src line 256) calls `str(e)` on
every premise before any row is printed, so a `Var(None)` premise raises
`TypeError` there — modelled by the header guard. -/
def truth_table_multiple (exprs : List Expr) : Option (List (List String)) :=
  let vlist := tableVars exprs
  (optionMapList Expr.str exprs).bind fun _headers =>
    optionMapList (tableRow vlist exprs) (boolProduct vlist.length)

instance : DecidableEq SplitResult := fun a b =>
  match a, b with
  | .withConclusion p c, .withConclusion q d =>
    if h : p = q ∧ c = d then .isTrue (by rw [h.1, h.2])
    else .isFalse (by intro hh; cases hh; exact h ⟨rfl, rfl⟩)
  | .noConclusion p, .noConclusion q =>
    if h : p = q then .isTrue (by rw [h]) else .isFalse (by intro hh; cases hh; exact h rfl)
  | .withConclusion _ _, .noConclusion _ => .isFalse (by intro hh; cases hh)
  | .noConclusion _, .withConclusion _ _ => .isFalse (by intro hh; cases hh)

/-! ### Reference definitions used to state claims -/

/-- All nodes of an expression tree in post-order (leaves to root); reference
definition following the spec's description of the collection order, compared
against `collect_subexpressions` in claim C5. -/
def postorderNodes : Expr → List Expr
  | .var n => [.var n]
  | .not op => postorderNodes op ++ [.not op]
  | .and l r => postorderNodes l ++ postorderNodes r ++ [.and l r]
  | .or l r => postorderNodes l ++ postorderNodes r ++ [.or l r]
  | .implies l r => postorderNodes l ++ postorderNodes r ++ [.implies l r]
  | .iff l r => postorderNodes l ++ postorderNodes r ++ [.iff l r]

/-- A bare `Variable` leaf (the nodes `collect_subexpressions` excludes). -/
def Expr.isLeaf : Expr → Bool
  | .var _ => true
  | _ => false

/-- The assignment row for index `i` over `n` variables in standard binary
counting order: bit `k` (most significant first) of `i`, with `False = 0`,
`True = 1`.  Reference definition for claim C4. -/
def natToRow : Nat → Nat → List Bool
  | 0, _ => []
  | n + 1, i => decide (i / 2 ^ n % 2 = 1) :: natToRow n i

/-! ### Claims C1, C2, C8, C9, C10 -/

/-- Claim C1 (counterexample): splitting `"p, q, therefore r"` does NOT yield
the premise list `["p", "q"]` — the code emits a third, empty premise, so the
claim as stated is false. -/
theorem split_premises_example_claimed_false :
    split_premises "p, q, therefore r" ≠ SplitResult.withConclusion ["p", "q"] "r" := by
  decide

/-- Claim C1 (amended): splitting `"p, q, therefore r"` yields the premise
list `["p", "q", ""]` and the conclusion `"r"`: the first depth-zero
occurrence of `therefore` terminates premise collection and everything after
it becomes the conclusion, but the segment between the last split point and
the separator is appended unconditionally, so an empty premise IS emitted when
a comma (plus whitespace) immediately precedes `therefore`. -/
theorem split_premises_example_actual :
    split_premises "p, q, therefore r" = SplitResult.withConclusion ["p", "q", ""] "r" := by
  decide

/-- Claim C2 (counterexample): parsing the empty token sequence does not fail
— `parse` returns the expression `Var(None)`, contradicting the claim that no
`Expression` is returned. -/
theorem parse_empty_returns_expression :
    parseFormula "" = Except.ok (Expr.var none) := by decide

/-- Claim C2 (amended): when the parser runs past the end of the token stream
while another token is expected, `peek()` returns `None`, `parse_atom`
consumes it, and `Var(None)` is produced instead of a `SyntaxError`: the empty
token sequence parses to `Var(None)` and a token sequence ending in a binary
operator parses to an expression with `Var(None)` as its right operand; in
both cases `parse` returns an `Expression`. -/
theorem parse_past_end_returns_var_none :
    parseTokens [] = Except.ok (Expr.var none, []) ∧
    parseTokens ["p", "&"] = Except.ok (Expr.and (.var (some "p")) (.var none), []) ∧
    parseFormula "p ->" = Except.ok (Expr.implies (.var (some "p")) (.var none)) := by
  decide

/-- Claim C8: premise-splitter separators split only at parenthesis depth
zero: `"p & (q, r) therefore s"` yields the single premise `"p & (q, r)"`
(the comma inside parentheses does not split) and conclusion `"s"`; a
`therefore` inside parentheses does not split; a `|-` inside parentheses does
not split while depth-zero commas do. -/
theorem split_premises_depth_zero_only :
    split_premises "p & (q, r) therefore s" =
      SplitResult.withConclusion ["p & (q, r)"] "s" ∧
    split_premises "p (q therefore r)" = SplitResult.noConclusion ["p (q therefore r)"] ∧
    split_premises "p, (a |- b), q" = SplitResult.noConclusion ["p", "(a |- b)", "q"] := by
  decide

/-- Claim C9: parsing `"p & (q"`, whose opening parenthesis is never closed,
fails with the parser's syntax error (`raise ValueError("Expected closing
parenthesis")` in the source — the spec's error taxonomy calls this
`SyntaxError`) rather than returning an `Expression`. -/
theorem parse_unbalanced_fails :
    parseFormula "p & (q" = Except.error "Expected closing parenthesis" := by decide

/-- Claim C10: at the atom position the parser accepts any token other than
`"("` as a variable name: `parse_atom` consumes it and returns `Var(token)`
without raising — including operator tokens such as `")"`, `"&"`, `"->"` —
and at end of stream it consumes the `None` returned by `peek()` and yields
`Var(None)`; hence token sequences outside the grammar such as `["&"]` alone
parse successfully to an `Expression` whose variable name is an operator
symbol. -/
theorem parse_atom_accepts_any_token :
    (∀ (f : Nat) (t : String) (rest : List String), t ≠ "(" →
      parse_atom (f + 1) (t :: rest) = .ok (.var (some t), rest)) ∧
    (∀ f : Nat, parse_atom (f + 1) [] = .ok (.var none, [])) ∧
    parseTokens ["&"] = .ok (.var (some "&"), []) ∧
    parseTokens [")"] = .ok (.var (some ")"), []) ∧
    parseTokens ["->"] = .ok (.var (some "->"), []) := by
  refine ⟨?_, ?_, by decide, by decide, by decide⟩
  · intro f t rest h
    simp [parse_atom, h]
  · intro f
    simp [parse_atom]

/-- Witness for claim C10's theorem at concrete inputs. -/
theorem parse_atom_accepts_any_token_witness :
    parse_atom 1 ["&", "x"] = .ok (.var (some "&"), ["x"]) ∧
    parse_atom 1 [] = .ok (.var none, []) :=
  ⟨parse_atom_accepts_any_token.1 0 "&" ["x"] (by decide),
    parse_atom_accepts_any_token.2.1 0⟩

/-! ### Claim C3: precedence and associativity -/

/-- Claim C3: the parser's grammar layers encode the precedence order
IFF < IMPLIES < OR < AND < NOT < atom, every binary operator is parsed
left-associatively (for all non-operator atoms `p, q, r`, the token sequence
of `"p -> q -> r"` parses to `Implies(Implies(p, q), r)`, and similarly for
`<->`, `|`, `&`), and `~` is right-associative via direct recursion
(`"~~p"` parses to `Not(Not(p))`); the final conjunct exercises the whole
precedence chain on `"p <-> q -> r | s & ~t"`. -/
theorem parser_precedence_left_assoc :
    (∀ p q r : String, p ≠ "~" → p ≠ "(" → q ≠ "~" → q ≠ "(" → r ≠ "~" → r ≠ "(" →
      parseTokens [p, "->", q, "->", r] =
        .ok (.implies (.implies (.var (some p)) (.var (some q))) (.var (some r)), []) ∧
      parseTokens [p, "<->", q, "<->", r] =
        .ok (.iff (.iff (.var (some p)) (.var (some q))) (.var (some r)), []) ∧
      parseTokens [p, "|", q, "|", r] =
        .ok (.or (.or (.var (some p)) (.var (some q))) (.var (some r)), []) ∧
      parseTokens [p, "&", q, "&", r] =
        .ok (.and (.and (.var (some p)) (.var (some q))) (.var (some r)), [])) ∧
    (∀ p : String, p ≠ "~" → p ≠ "(" →
      parseTokens ["~", "~", p] = .ok (.not (.not (.var (some p))), [])) ∧
    parseFormula "p <-> q -> r | s & ~t" =
      .ok (.iff (.var (some "p"))
        (.implies (.var (some "q"))
          (.or (.var (some "r")) (.and (.var (some "s")) (.not (.var (some "t"))))))) := by
  refine ⟨?_, ?_, by decide⟩
  · intro p q r hp1 hp2 hq1 hq2 hr1 hr2
    refine ⟨?_, ?_, ?_, ?_⟩ <;>
      simp [parseTokens, parse_iff, parse_implies, parse_or, parse_and, parse_not,
        parse_atom, iffLoop, impliesLoop, orLoop, andLoop,
        hp1, hp2, hq1, hq2, hr1, hr2]
  · intro p hp1 hp2
    simp [parseTokens, parse_iff, parse_implies, parse_or, parse_and, parse_not,
      parse_atom, iffLoop, impliesLoop, orLoop, andLoop, hp1, hp2]

/-- Witness for claim C3's theorem at concrete atoms. -/
theorem parser_precedence_left_assoc_witness :
    parseTokens ["a", "->", "b", "->", "c"] =
      .ok (.implies (.implies (.var (some "a")) (.var (some "b"))) (.var (some "c")), []) ∧
    parseTokens ["~", "~", "a"] = .ok (.not (.not (.var (some "a"))), []) :=
  ⟨(parser_precedence_left_assoc.1 "a" "b" "c" (by decide) (by decide) (by decide)
      (by decide) (by decide) (by decide)).1,
    parser_precedence_left_assoc.2.1 "a" (by decide) (by decide)⟩

/-! ### Claim C5: sub-expression collection -/

/-- Accumulator form of `collect_subexpressions`: the collected list extends
the accumulator with the post-order sequence of non-leaf nodes. -/
theorem collect_subexpressions_eq_append (e : Expr) :
    ∀ acc, collect_subexpressions e acc =
      acc ++ (postorderNodes e).filter (fun x => !x.isLeaf) := by
  induction e <;> intro acc <;>
    simp [collect_subexpressions, postorderNodes, Expr.isLeaf, List.filter_append, *]

/-- Claim C5: for every root expression, `collect_subexpressions` returns the
post-order (leaves-to-root) sequence of all non-leaf nodes — every tree node
appears after all of its descendants and each tree position appears exactly
once; deduplication is by node identity, never by structural equality, so in
the shallow tree embedding (where distinct positions are never identical) no
entry is removed and structurally equal sub-trees at different positions stay
distinct entries.  On the AST of `"(p & q) | ~p"` the collected order is
`[And(p,q), Not(p), Or(And(p,q), Not(p))]`. -/
theorem collect_subexpressions_postorder :
    (∀ e : Expr, collect_subexpressions e [] =
      (postorderNodes e).filter (fun x => !x.isLeaf)) ∧
    collect_subexpressions
        (.or (.and (.var (some "p")) (.var (some "q"))) (.not (.var (some "p")))) [] =
      [.and (.var (some "p")) (.var (some "q")), .not (.var (some "p")),
        .or (.and (.var (some "p")) (.var (some "q"))) (.not (.var (some "p")))] := by
  refine ⟨fun e => ?_, by decide⟩
  simpa using collect_subexpressions_eq_append e []

/-! ### Claim C7: material implication -/

/-- Claim C7: `Implies(p, q).evaluate` returns `False` exactly when the left
operand evaluates to `True` and the right one to `False`, and `True` for the
other three combinations (the value is `¬l ∨ r`); end to end, the input
`"p -> q"` parses to `Implies(Var p, Var q)` and produces 4 rows whose
`Implies` column reads `T, T, F, T` for the assignments ordered
`(p=F,q=F), (F,T), (T,F), (T,T)` — the third cell of each row below. -/
theorem implies_evaluate_semantics :
    (∀ (ctx : List (Option String × Bool)) (l r : Expr) (bl br : Bool),
      Expr.evaluate ctx l = some bl → Expr.evaluate ctx r = some br →
      Expr.evaluate ctx (.implies l r) = some (!bl || br) ∧
      (Expr.evaluate ctx (.implies l r) = some false ↔ bl = true ∧ br = false)) ∧
    parseFormula "p -> q" = .ok (.implies (.var (some "p")) (.var (some "q"))) ∧
    truth_table_multiple [.implies (.var (some "p")) (.var (some "q"))] =
      some [["F", "F", "T", "T"], ["F", "T", "T", "T"],
        ["T", "F", "F", "F"], ["T", "T", "T", "T"]] := by
  refine ⟨?_, by decide, by decide⟩
  intro ctx l r bl br hl hr
  constructor
  · cases bl <;> simp [Expr.evaluate, hl, hr]
  · cases bl <;> cases br <;> simp [Expr.evaluate, hl, hr]

/-- Witness for claim C7's theorem: the one falsifying combination, at a
concrete context. -/
theorem implies_evaluate_semantics_witness :
    Expr.evaluate [(some "p", true), (some "q", false)]
      (.implies (.var (some "p")) (.var (some "q"))) = some false :=
  (implies_evaluate_semantics.1 [(some "p", true), (some "q", false)]
      (.var (some "p")) (.var (some "q")) true false (by decide) (by decide)).2.mpr
    ⟨rfl, rfl⟩

/-! ### Order lemmas for the variable sort (claim C4) -/

theorem charListLe_total : ∀ a b : List Char, charListLe a b = true ∨ charListLe b a = true
  | [], _ => .inl rfl
  | _ :: _, [] => .inr rfl
  | a :: as, b :: bs => by
    by_cases hab : a = b
    · subst hab
      simpa [charListLe] using charListLe_total as bs
    · rcases lt_trichotomy a b with h | h | h
      · exact .inl (by simp [charListLe, hab, h])
      · exact absurd h hab
      · exact .inr (by simp [charListLe, Ne.symm hab, h])

theorem charListLe_trans :
    ∀ a b c : List Char, charListLe a b = true → charListLe b c = true →
      charListLe a c = true
  | [], _, _, _, _ => rfl
  | _ :: _, [], _, h, _ => by simp [charListLe] at h
  | _ :: _, _ :: _, [], _, h => by simp [charListLe] at h
  | a :: as, b :: bs, c :: cs, h1, h2 => by
    by_cases hab : a = b <;> by_cases hbc : b = c
    · subst hab; subst hbc
      simp only [charListLe, if_pos rfl] at h1 h2 ⊢
      exact charListLe_trans as bs cs h1 h2
    · subst hab
      simpa [charListLe, hbc] using h2
    · subst hbc
      simpa [charListLe, hab] using h1
    · simp only [charListLe, if_neg hab, decide_eq_true_eq] at h1
      simp only [charListLe, if_neg hbc, decide_eq_true_eq] at h2
      have hac : a < c := lt_trans h1 h2
      simp [charListLe, ne_of_lt hac, hac]

instance : IsTotal (Option String) nameRel where
  total a b := by
    cases a <;> cases b <;> simp [nameRel, nameLe]
    exact charListLe_total _ _

instance : IsTrans (Option String) nameRel where
  trans a b c h1 h2 := by
    cases a <;> cases b <;> cases c <;> simp_all [nameRel, nameLe]
    exact charListLe_trans _ _ _ h1 h2

/-! ### Support lemmas for claim C4 -/

theorem optionMapList_spec {α β : Type _} (f : α → Option β) :
    ∀ (l : List α) (res : List β),
      optionMapList f l = some res ↔ List.Forall₂ (fun a b => f a = some b) l res
  | [], res => by
    simp [optionMapList, List.forall₂_nil_left_iff, eq_comm]
  | a :: l, res => by
    simp only [optionMapList, Option.bind_eq_some, Option.map_eq_some']
    constructor
    · rintro ⟨b, hb, bs, hbs, rfl⟩
      exact List.Forall₂.cons hb ((optionMapList_spec f l bs).mp hbs)
    · intro h
      cases h with
      | cons hb htl =>
        exact ⟨_, hb, _, (optionMapList_spec f l _).mpr htl, rfl⟩

theorem optionMapList_isSome {α β : Type _} {f : α → Option β} :
    ∀ {l : List α}, (∀ a ∈ l, ∃ b, f a = some b) → ∃ res, optionMapList f l = some res
  | [], _ => ⟨[], rfl⟩
  | a :: l, h => by
    obtain ⟨b, hb⟩ := h a (List.mem_cons_self a l)
    obtain ⟨res, hres⟩ := optionMapList_isSome fun x hx => h x (List.mem_cons_of_mem a hx)
    exact ⟨b :: res, by simp [optionMapList, hb, hres]⟩

theorem natToRow_length : ∀ n i, (natToRow n i).length = n
  | 0, _ => rfl
  | n + 1, i => by simp [natToRow, natToRow_length n i]

theorem natToRow_add_pow : ∀ n i, natToRow n (i + 2 ^ n) = natToRow n i
  | 0, _ => rfl
  | n + 1, i => by
    have h2 : (0 : Nat) < 2 ^ n := Nat.pos_pow_of_pos n (by norm_num)
    have hdiv : (i + 2 ^ (n + 1)) / 2 ^ n = i / 2 ^ n + 2 := by
      have : i + 2 ^ (n + 1) = i + 2 * 2 ^ n := by ring_nf
      rw [this, Nat.add_mul_div_right i 2 h2]
    have htail : natToRow n (i + 2 ^ (n + 1)) = natToRow n i := by
      have : i + 2 ^ (n + 1) = i + 2 ^ n + 2 ^ n := by ring_nf
      rw [this, natToRow_add_pow n (i + 2 ^ n), natToRow_add_pow n i]
    simp [natToRow, hdiv, htail, Nat.add_mul_mod_self_left]

theorem boolProduct_eq_range_map :
    ∀ n, boolProduct n = (List.range (2 ^ n)).map (natToRow n)
  | 0 => rfl
  | n + 1 => by
    have h2 : (0 : Nat) < 2 ^ n := Nat.pos_pow_of_pos n (by norm_num)
    have hsplit : (2 : Nat) ^ (n + 1) = 2 ^ n + 2 ^ n := by ring
    rw [show boolProduct (n + 1) =
        (boolProduct n).map (fun row => false :: row) ++
          (boolProduct n).map (fun row => true :: row) from rfl,
      boolProduct_eq_range_map n, hsplit, List.range_add]
    simp only [List.map_append, List.map_map]
    congr 1
    · apply List.map_congr_left
      intro i hi
      have hi2 : i < 2 ^ n := List.mem_range.mp hi
      have : i / 2 ^ n = 0 := Nat.div_eq_of_lt hi2
      simp [natToRow, this]
    · apply List.map_congr_left
      intro i hi
      have hi2 : i < 2 ^ n := List.mem_range.mp hi
      have : (2 ^ n + i) / 2 ^ n = 1 := by
        rw [Nat.add_comm, Nat.add_div_right i h2, Nat.div_eq_of_lt hi2]
      have htail : natToRow n (2 ^ n + i) = natToRow n i := by
        rw [Nat.add_comm, natToRow_add_pow]
      simp [natToRow, this, htail]

theorem boolProduct_length (n : Nat) : (boolProduct n).length = 2 ^ n := by
  rw [boolProduct_eq_range_map]
  simp

theorem boolProduct_row_length : ∀ n, ∀ row ∈ boolProduct n, row.length = n := by
  intro n row hrow
  rw [boolProduct_eq_range_map] at hrow
  obtain ⟨i, _, rfl⟩ := List.mem_map.mp hrow
  exact natToRow_length n i

theorem nodup_insertB {α : Type _} [BEq α] [LawfulBEq α] {l : List α}
    (h : l.Nodup) (a : α) : (l.insert a).Nodup := by
  by_cases hm : a ∈ l
  · simpa [List.insert, List.elem_iff, hm] using h
  · simpa [List.insert, List.elem_iff, hm] using List.nodup_cons.mpr ⟨hm, h⟩

theorem nodup_unionB {α : Type _} [BEq α] [LawfulBEq α] (l1 : List α)
    {l2 : List α} (h : l2.Nodup) : (l1 ∪ l2).Nodup := by
  induction l1 with
  | nil => exact h
  | cons a l ih => exact nodup_insertB ih a

theorem vars_nodup : ∀ e : Expr, e.vars.Nodup
  | .var n => List.nodup_singleton n
  | .not e => vars_nodup e
  | .and l r => nodup_unionB l.vars (vars_nodup r)
  | .or l r => nodup_unionB l.vars (vars_nodup r)
  | .implies l r => nodup_unionB l.vars (vars_nodup r)
  | .iff l r => nodup_unionB l.vars (vars_nodup r)

theorem unionVars_fold_nodup :
    ∀ (l : List Expr) (acc : List (Option String)), acc.Nodup →
      (l.foldl (fun acc e => acc ∪ e.vars) acc).Nodup
  | [], _, h => h
  | e :: l, acc, _ =>
    unionVars_fold_nodup l (acc ∪ e.vars) (nodup_unionB acc (vars_nodup e))

theorem unionVars_nodup (exprs : List Expr) : (unionVars exprs).Nodup :=
  unionVars_fold_nodup exprs [] List.nodup_nil

theorem mem_unionVars_fold :
    ∀ (l : List Expr) (acc : List (Option String)) (v : Option String),
      v ∈ l.foldl (fun acc e => acc ∪ e.vars) acc ↔
        v ∈ acc ∨ ∃ e ∈ l, v ∈ e.vars
  | [], acc, v => by simp
  | e :: l, acc, v => by
    rw [List.foldl_cons, mem_unionVars_fold l (acc ∪ e.vars) v,
      List.mem_union_iff]
    simp only [List.mem_cons]
    constructor
    · rintro (⟨h | h⟩ | ⟨e1, h1, h2⟩)
      · exact .inl h
      · exact .inr ⟨e, .inl rfl, h⟩
      · exact .inr ⟨e1, .inr h1, h2⟩
    · rintro (h | ⟨e1, rfl | h1, h2⟩)
      · exact .inl (.inl h)
      · exact .inl (.inr h2)
      · exact .inr ⟨e1, h1, h2⟩

theorem mem_unionVars (exprs : List Expr) (v : Option String) :
    v ∈ unionVars exprs ↔ ∃ e ∈ exprs, v ∈ e.vars := by
  rw [unionVars, mem_unionVars_fold]
  simp

theorem tableVars_perm (exprs : List Expr) :
    (tableVars exprs).Perm (unionVars exprs) :=
  List.perm_insertionSort nameRel (unionVars exprs)

theorem tableVars_sorted (exprs : List Expr) :
    List.Sorted nameRel (tableVars exprs) :=
  List.sorted_insertionSort nameRel (unionVars exprs)

theorem tableVars_nodup (exprs : List Expr) : (tableVars exprs).Nodup :=
  ((tableVars_perm exprs).nodup_iff).mpr (unionVars_nodup exprs)

theorem mem_tableVars (exprs : List Expr) (v : Option String) :
    v ∈ tableVars exprs ↔ ∃ e ∈ exprs, v ∈ e.vars := by
  rw [(tableVars_perm exprs).mem_iff, mem_unionVars]

theorem str_isSome : ∀ e : Expr, (∀ n ∈ e.vars, n ≠ none) → ∃ s, Expr.str e = some s
  | .var name, h => by
    obtain ⟨s, rfl⟩ := Option.ne_none_iff_exists'.mp (h name (List.mem_singleton_self name))
    exact ⟨s, rfl⟩
  | .not e, h => by
    obtain ⟨s, hs⟩ := str_isSome e h
    exact ⟨"~" ++ s, by simp [Expr.str, hs]⟩
  | .and l r, h => by
    obtain ⟨ls, hls⟩ := str_isSome l fun n hn => h n (by simp [Expr.vars, List.mem_union_iff, hn])
    obtain ⟨rs, hrs⟩ := str_isSome r fun n hn => h n (by simp [Expr.vars, List.mem_union_iff, hn])
    exact ⟨"(" ++ ls ++ " & " ++ rs ++ ")", by simp [Expr.str, hls, hrs]⟩
  | .or l r, h => by
    obtain ⟨ls, hls⟩ := str_isSome l fun n hn => h n (by simp [Expr.vars, List.mem_union_iff, hn])
    obtain ⟨rs, hrs⟩ := str_isSome r fun n hn => h n (by simp [Expr.vars, List.mem_union_iff, hn])
    exact ⟨"(" ++ ls ++ " | " ++ rs ++ ")", by simp [Expr.str, hls, hrs]⟩
  | .implies l r, h => by
    obtain ⟨ls, hls⟩ := str_isSome l fun n hn => h n (by simp [Expr.vars, List.mem_union_iff, hn])
    obtain ⟨rs, hrs⟩ := str_isSome r fun n hn => h n (by simp [Expr.vars, List.mem_union_iff, hn])
    exact ⟨"(" ++ ls ++ " -> " ++ rs ++ ")", by simp [Expr.str, hls, hrs]⟩
  | .iff l r, h => by
    obtain ⟨ls, hls⟩ := str_isSome l fun n hn => h n (by simp [Expr.vars, List.mem_union_iff, hn])
    obtain ⟨rs, hrs⟩ := str_isSome r fun n hn => h n (by simp [Expr.vars, List.mem_union_iff, hn])
    exact ⟨"(" ++ ls ++ " <-> " ++ rs ++ ")", by simp [Expr.str, hls, hrs]⟩

theorem lookup_cons_ne {α β : Type _} [BEq α] (a k : α) (b : β) (es : List (α × β))
    (h : (a == k) = false) : List.lookup a ((k, b) :: es) = List.lookup a es := by
  simp [List.lookup, h]

theorem lookup_cons_self {α β : Type _} [BEq α] [LawfulBEq α] (a : α) (b : β)
    (es : List (α × β)) : List.lookup a ((a, b) :: es) = some b := by
  simp [List.lookup]

theorem lookup_zip_isSome :
    ∀ (vs : List (Option String)) (vals : List Bool) (v : Option String),
      v ∈ vs → vs.length = vals.length →
      ∃ b, List.lookup v (vs.zip vals) = some b
  | v0 :: vs, b0 :: vals, v, hv, hlen => by
    rw [List.zip_cons_cons]
    by_cases hvv : v = v0
    · subst hvv
      exact ⟨b0, lookup_cons_self v b0 _⟩
    · have hv2 : v ∈ vs := by
        rcases List.mem_cons.mp hv with h | h
        · exact absurd h hvv
        · exact h
      obtain ⟨b, hb⟩ := lookup_zip_isSome vs vals v hv2 (by simpa using hlen)
      have hbeq : (v == v0) = false := beq_eq_false_iff_ne.mpr hvv
      exact ⟨b, (lookup_cons_ne v v0 b0 _ hbeq).trans hb⟩
  | [], _, v, hv, _ => absurd hv (List.not_mem_nil v)
  | _ :: _, [], _, _, hlen => by simp at hlen

theorem evaluate_isSome (env : List (Option String × Bool)) :
    ∀ e : Expr, (∀ n ∈ e.vars, ∃ b, List.lookup n env = some b) →
      ∃ b, Expr.evaluate env e = some b
  | .var name, h => h name (List.mem_singleton_self name)
  | .not e, h => by
    obtain ⟨b, hb⟩ := evaluate_isSome env e h
    exact ⟨!b, by simp [Expr.evaluate, hb]⟩
  | .and l r, h => by
    obtain ⟨bl, hbl⟩ := evaluate_isSome env l fun n hn =>
      h n (by simp [Expr.vars, List.mem_union_iff, hn])
    obtain ⟨br, hbr⟩ := evaluate_isSome env r fun n hn =>
      h n (by simp [Expr.vars, List.mem_union_iff, hn])
    cases bl
    · exact ⟨false, by simp [Expr.evaluate, hbl]⟩
    · exact ⟨br, by simp [Expr.evaluate, hbl, hbr]⟩
  | .or l r, h => by
    obtain ⟨bl, hbl⟩ := evaluate_isSome env l fun n hn =>
      h n (by simp [Expr.vars, List.mem_union_iff, hn])
    obtain ⟨br, hbr⟩ := evaluate_isSome env r fun n hn =>
      h n (by simp [Expr.vars, List.mem_union_iff, hn])
    cases bl
    · exact ⟨br, by simp [Expr.evaluate, hbl, hbr]⟩
    · exact ⟨true, by simp [Expr.evaluate, hbl]⟩
  | .implies l r, h => by
    obtain ⟨bl, hbl⟩ := evaluate_isSome env l fun n hn =>
      h n (by simp [Expr.vars, List.mem_union_iff, hn])
    obtain ⟨br, hbr⟩ := evaluate_isSome env r fun n hn =>
      h n (by simp [Expr.vars, List.mem_union_iff, hn])
    cases bl
    · exact ⟨true, by simp [Expr.evaluate, hbl]⟩
    · exact ⟨br, by simp [Expr.evaluate, hbl, hbr]⟩
  | .iff l r, h => by
    obtain ⟨bl, hbl⟩ := evaluate_isSome env l fun n hn =>
      h n (by simp [Expr.vars, List.mem_union_iff, hn])
    obtain ⟨br, hbr⟩ := evaluate_isSome env r fun n hn =>
      h n (by simp [Expr.vars, List.mem_union_iff, hn])
    exact ⟨bl == br, by simp [Expr.evaluate, hbl, hbr]⟩

theorem lookup_zip_get :
    ∀ (vs : List (Option String)) (vals : List Bool), vs.Nodup →
      ∀ i (h1 : i < vs.length) (h2 : i < vals.length),
        List.lookup (vs.get ⟨i, h1⟩) (vs.zip vals) = some (vals.get ⟨i, h2⟩)
  | v0 :: vs, b0 :: vals, _, 0, _, _ => by
    rw [List.zip_cons_cons]
    exact lookup_cons_self v0 b0 _
  | v0 :: vs, b0 :: vals, hnd, i + 1, h1, h2 => by
    have h1v : i < vs.length := by simpa using h1
    have h2v : i < vals.length := by simpa using h2
    have hmem : vs.get ⟨i, h1v⟩ ∈ vs := vs.get_mem i h1v
    have hne : vs.get ⟨i, h1v⟩ ≠ v0 := by
      intro hh
      exact (List.nodup_cons.mp hnd).1 (hh ▸ hmem)
    have hbeq : (vs.get ⟨i, h1v⟩ == v0) = false := beq_eq_false_iff_ne.mpr hne
    have ih := lookup_zip_get vs vals (List.nodup_cons.mp hnd).2 i h1v h2v
    show List.lookup ((v0 :: vs).get ⟨i + 1, h1⟩) (((v0 :: vs)).zip (b0 :: vals)) =
      some ((b0 :: vals).get ⟨i + 1, h2⟩)
    rw [List.zip_cons_cons, List.get_cons_succ, List.get_cons_succ,
      lookup_cons_ne _ v0 b0 _ hbeq]
    exact ih
  | [], _, _, i, h1, _ => by simp at h1
  | _ :: _, [], _, i, _, h2 => by simp at h2

/-! ### Claim C4: the truth-table engine -/

/-- Claim C4: for every expression list (over real variable names — the code
crashes on Python's `sorted` if `Var(None)` variables are mixed in), the
truth-table engine enumerates assignments over the sorted union of the
variables in standard binary counting order — the `i`-th row's variable cells
are the big-endian bits of `i` with `False = 0` before `True = 1`, first
variable most significant — producing exactly `2 ^ n` rows for `n` variables,
exactly one row when `n = 0`, and the variable list (hence the row order) is
a deterministic function of the variable set: sorted, duplicate-free, and
containing exactly the union of the expressions' variables. -/
theorem truth_table_enumeration (exprs : List Expr)
    (hnn : ∀ e ∈ exprs, ∀ n ∈ e.vars, n ≠ none) :
    ∃ rows, truth_table_multiple exprs = some rows ∧
      rows.length = 2 ^ (tableVars exprs).length ∧
      ((tableVars exprs).length = 0 → rows.length = 1) ∧
      List.Sorted nameRel (tableVars exprs) ∧
      (tableVars exprs).Nodup ∧
      (∀ v, v ∈ tableVars exprs ↔ ∃ e ∈ exprs, v ∈ e.vars) ∧
      ∀ i (h1 : i < rows.length),
        (rows.get ⟨i, h1⟩).take (tableVars exprs).length =
          (natToRow (tableVars exprs).length i).map cellTF := by
  have hlookup : ∀ values : List Bool,
      values.length = (tableVars exprs).length →
      ∀ n1 ∈ unionVars exprs,
        ∃ b, List.lookup n1 ((tableVars exprs).zip values) = some b := by
    intro values hval n1 hn1
    exact lookup_zip_isSome (tableVars exprs) values n1
      ((mem_tableVars exprs n1).mpr ((mem_unionVars exprs n1).mp hn1)) hval.symm
  have hrow : ∀ values ∈ boolProduct (tableVars exprs).length,
      ∃ row, tableRow (tableVars exprs) exprs values = some row := by
    intro values hval
    have hlen : values.length = (tableVars exprs).length :=
      boolProduct_row_length _ values hval
    obtain ⟨varVals, hvar⟩ := optionMapList_isSome
      (l := tableVars exprs)
      (f := fun v => List.lookup v ((tableVars exprs).zip values))
      (fun v hv => hlookup values hlen v ((mem_tableVars exprs v).mp hv |> fun h =>
        (mem_unionVars exprs v).mpr h))
    obtain ⟨premVals, hprem⟩ := optionMapList_isSome
      (l := exprs)
      (f := fun e => Expr.evaluate ((tableVars exprs).zip values) e)
      (fun e he => evaluate_isSome _ e fun n1 hn1 =>
        hlookup values hlen n1 ((mem_unionVars exprs n1).mpr ⟨e, he, hn1⟩))
    exact ⟨varVals.map cellTF ++ premVals.map cellTF ++ [cellTF (premVals.all id)],
      by simp [tableRow, hvar, hprem]⟩
  obtain ⟨headers, hheaders⟩ := optionMapList_isSome
    (l := exprs) (f := Expr.str) (fun e he => str_isSome e (hnn e he))
  obtain ⟨rows, hrows⟩ := optionMapList_isSome
    (l := boolProduct (tableVars exprs).length)
    (f := tableRow (tableVars exprs) exprs) hrow
  have hfor := (optionMapList_spec _ _ _).mp hrows
  have hlen : rows.length = 2 ^ (tableVars exprs).length := by
    rw [← hfor.length_eq, boolProduct_length]
  refine ⟨rows, by simp [truth_table_multiple, hheaders, hrows], hlen,
    fun h0 => by simp [hlen, h0], tableVars_sorted exprs, tableVars_nodup exprs,
    mem_tableVars exprs, ?_⟩
  intro i h1
  have h1b : i < (boolProduct (tableVars exprs).length).length := by
    rw [boolProduct_length, ← hlen]; exact h1
  have hget := (List.forall₂_iff_get.mp hfor).2 i h1b h1
  have hbp : (boolProduct (tableVars exprs).length).get ⟨i, h1b⟩ =
      natToRow (tableVars exprs).length i := by
    have hi2 : i < 2 ^ (tableVars exprs).length := by
      rw [← boolProduct_length]; exact h1b
    simp [boolProduct_eq_range_map, List.get_eq_getElem, hi2]
  rw [hbp] at hget
  -- unfold the successful tableRow at this assignment
  have hvlen : (natToRow (tableVars exprs).length i).length = (tableVars exprs).length :=
    natToRow_length _ i
  have hvarVals : optionMapList
      (fun v => List.lookup v ((tableVars exprs).zip (natToRow (tableVars exprs).length i)))
      (tableVars exprs) = some (natToRow (tableVars exprs).length i) := by
    refine (optionMapList_spec _ _ _).mpr (List.forall₂_of_length_eq_of_get hvlen.symm ?_)
    intro j hj1 hj2
    exact lookup_zip_get (tableVars exprs) (natToRow (tableVars exprs).length i)
      (tableVars_nodup exprs) j hj1 hj2
  obtain ⟨premVals, hprem⟩ := optionMapList_isSome
    (l := exprs)
    (f := fun e => Expr.evaluate ((tableVars exprs).zip
      (natToRow (tableVars exprs).length i)) e)
    (fun e he => evaluate_isSome _ e fun n1 hn1 =>
      hlookup _ hvlen n1 ((mem_unionVars exprs n1).mpr ⟨e, he, hn1⟩))
  have htr : tableRow (tableVars exprs) exprs (natToRow (tableVars exprs).length i) =
      some ((natToRow (tableVars exprs).length i).map cellTF ++
        premVals.map cellTF ++ [cellTF (premVals.all id)]) := by
    simp [tableRow, hvarVals, hprem]
  have hroweq : rows.get ⟨i, h1⟩ =
      (natToRow (tableVars exprs).length i).map cellTF ++
        premVals.map cellTF ++ [cellTF (premVals.all id)] :=
    (Option.some.inj (htr.symm.trans hget)).symm
  rw [hroweq, List.append_assoc]
  exact List.take_left' (by simp [hvlen])

/-- Witness for claim C4's theorem on the premise list `[Implies(p, q)]`. -/
theorem truth_table_enumeration_witness :
    ∃ rows, truth_table_multiple [Expr.implies (.var (some "p")) (.var (some "q"))] =
        some rows ∧
      rows.length =
        2 ^ (tableVars [Expr.implies (.var (some "p")) (.var (some "q"))]).length ∧
      ((tableVars [Expr.implies (.var (some "p")) (.var (some "q"))]).length = 0 →
        rows.length = 1) ∧
      List.Sorted nameRel (tableVars [Expr.implies (.var (some "p")) (.var (some "q"))]) ∧
      (tableVars [Expr.implies (.var (some "p")) (.var (some "q"))]).Nodup ∧
      (∀ v, v ∈ tableVars [Expr.implies (.var (some "p")) (.var (some "q"))] ↔
        ∃ e ∈ [Expr.implies (.var (some "p")) (.var (some "q"))], v ∈ e.vars) ∧
      ∀ i (h1 : i < rows.length),
        (rows.get ⟨i, h1⟩).take
            (tableVars [Expr.implies (.var (some "p")) (.var (some "q"))]).length =
          (natToRow (tableVars [Expr.implies (.var (some "p")) (.var (some "q"))]).length
            i).map cellTF :=
  truth_table_enumeration [Expr.implies (.var (some "p")) (.var (some "q"))] (by decide)

/-! ### Support lemmas for claim C6: the tokenizer -/

/-- The tokenizer on its character-list form; `tokenize s = tokenizeChars s.data`. -/
def tokenizeChars (cs : List Char) : List String :=
  tokenizeAux cs.length cs

theorem identSpan_snd_length : ∀ cs : List Char, (identSpan cs).2.length ≤ cs.length
  | [] => Nat.le_refl 0
  | c :: cs => by
    by_cases h : isIdentChar c = true
    · simp only [identSpan, if_pos h]
      exact Nat.le_trans (identSpan_snd_length cs) (Nat.le_succ _)
    · simp only [identSpan, if_neg h]
      exact Nat.le_refl _

theorem tokenizeAux_fuel :
    ∀ (f1 : Nat) (cs : List Char) (f2 : Nat), cs.length ≤ f1 → cs.length ≤ f2 →
      tokenizeAux f1 cs = tokenizeAux f2 cs := by
  intro f1
  induction f1 with
  | zero =>
    intro cs f2 h1 _
    have hnil : cs = [] := List.length_eq_zero.mp (Nat.le_zero.mp h1)
    subst hnil
    cases f2 <;> rfl
  | succ g1 ih =>
    intro cs f2 h1 h2
    cases cs with
    | nil => cases f2 <;> rfl
    | cons c cs =>
      simp only [List.length_cons] at h1 h2
      obtain ⟨g2, rfl⟩ : ∃ g, f2 = g + 1 := ⟨f2 - 1, by omega⟩
      have hl1 : cs.length ≤ g1 := by omega
      have hl2 : cs.length ≤ g2 := by omega
      have htail : cs.tail.length = cs.length - 1 := List.length_tail cs
      have htail2 : cs.tail.tail.length = cs.tail.length - 1 := List.length_tail cs.tail
      have hident := identSpan_snd_length cs
      have e0 : tokenizeAux g1 cs = tokenizeAux g2 cs := ih cs g2 hl1 hl2
      have e1 : tokenizeAux g1 cs.tail = tokenizeAux g2 cs.tail :=
        ih cs.tail g2 (by omega) (by omega)
      have e2 : tokenizeAux g1 cs.tail.tail = tokenizeAux g2 cs.tail.tail :=
        ih cs.tail.tail g2 (by omega) (by omega)
      have e3 : tokenizeAux g1 (identSpan cs).2 = tokenizeAux g2 (identSpan cs).2 :=
        ih (identSpan cs).2 g2 (by omega) (by omega)
      simp only [tokenizeAux, e0, e1, e2, e3]

theorem tokenizeChars_space (c : Char) (cs : List Char) (h : isSpaceChar c = true) :
    tokenizeChars (c :: cs) = tokenizeChars cs := by
  unfold tokenizeChars
  rw [List.length_cons]
  simp only [tokenizeAux]
  rw [if_pos h]

theorem tokenizeChars_tilde (cs : List Char) :
    tokenizeChars ('~' :: cs) = "~" :: tokenizeChars cs := by
  unfold tokenizeChars
  rw [List.length_cons]
  simp only [tokenizeAux]
  simp +decide

theorem tokenizeChars_amp (cs : List Char) :
    tokenizeChars ('&' :: cs) = "&" :: tokenizeChars cs := by
  unfold tokenizeChars
  rw [List.length_cons]
  simp only [tokenizeAux]
  simp +decide

theorem tokenizeChars_bar (cs : List Char) :
    tokenizeChars ('|' :: cs) = "|" :: tokenizeChars cs := by
  unfold tokenizeChars
  rw [List.length_cons]
  simp only [tokenizeAux]
  simp +decide

theorem tokenizeChars_lparen (cs : List Char) :
    tokenizeChars ('(' :: cs) = "(" :: tokenizeChars cs := by
  unfold tokenizeChars
  rw [List.length_cons]
  simp only [tokenizeAux]
  simp +decide

theorem tokenizeChars_rparen (cs : List Char) :
    tokenizeChars (')' :: cs) = ")" :: tokenizeChars cs := by
  unfold tokenizeChars
  rw [List.length_cons]
  simp only [tokenizeAux]
  simp +decide

theorem tokenizeChars_arrow (cs : List Char) :
    tokenizeChars ('-' :: '>' :: cs) = "->" :: tokenizeChars cs := by
  have hfuel := tokenizeAux_fuel (cs.length + 1) cs cs.length (by omega) (Nat.le_refl _)
  unfold tokenizeChars
  simp only [List.length_cons]
  simp only [tokenizeAux]
  simp +decide [hfuel]

theorem tokenizeChars_iffArrow (cs : List Char) :
    tokenizeChars ('<' :: '-' :: '>' :: cs) = "<->" :: tokenizeChars cs := by
  have hfuel := tokenizeAux_fuel (cs.length + 2) cs cs.length (by omega) (Nat.le_refl _)
  unfold tokenizeChars
  simp only [List.length_cons]
  simp only [tokenizeAux]
  simp +decide [hfuel]

theorem alpha_not_special {c : Char} (h : isAlphaChar c = true) :
    isSpaceChar c = false ∧ c ≠ '~' ∧ c ≠ '&' ∧ c ≠ '|' ∧ c ≠ '(' ∧ c ≠ ')' ∧
      c ≠ '-' ∧ c ≠ '<' := by
  refine ⟨?_, ?_, ?_, ?_, ?_, ?_, ?_, ?_⟩
  · by_contra hs
    rw [Bool.not_eq_false] at hs
    simp only [isSpaceChar, Bool.or_eq_true, decide_eq_true_eq] at hs
    rcases hs with ((((h1 | h1) | h1) | h1) | h1) | h1 <;>
      (subst h1; exact absurd h (by decide))
  all_goals intro heq; subst heq; exact absurd h (by decide)

theorem identSpan_fst_all : ∀ cs : List Char, (identSpan cs).1.all isIdentChar = true
  | [] => rfl
  | c :: cs => by
    by_cases h : isIdentChar c = true
    · simp [identSpan, h, identSpan_fst_all cs]
    · simp [identSpan, h]

theorem identSpan_append :
    ∀ (tail cs : List Char), tail.all isIdentChar = true →
      (∀ c1, cs.head? = some c1 → isIdentChar c1 = false) →
      identSpan (tail ++ cs) = (tail, cs)
  | [], cs, _, hcs => by
    cases cs with
    | nil => rfl
    | cons c1 cs1 => simp [identSpan, hcs c1 rfl]
  | t :: ts, cs, htail, hcs => by
    have ht : isIdentChar t = true :=
      List.all_eq_true.mp htail t (List.mem_cons_self t ts)
    have hts : ts.all isIdentChar = true := List.all_eq_true.mpr fun x hx =>
      List.all_eq_true.mp htail x (List.mem_cons_of_mem t hx)
    simp [identSpan, ht, identSpan_append ts cs hts hcs]

theorem tokenizeChars_ident (c : Char) (tail cs : List Char)
    (hc : isAlphaChar c = true) (htail : tail.all isIdentChar = true)
    (hcs : ∀ c1, cs.head? = some c1 → isIdentChar c1 = false) :
    tokenizeChars ((c :: tail) ++ cs) = String.mk (c :: tail) :: tokenizeChars cs := by
  obtain ⟨hsp, h1, h2, h3, h4, h5, h6, h7⟩ := alpha_not_special hc
  have hspan := identSpan_append tail cs htail hcs
  have hfuel := tokenizeAux_fuel (tail.length + cs.length) cs cs.length
    (by omega) (Nat.le_refl _)
  unfold tokenizeChars
  simp only [List.cons_append, List.length_cons]
  simp only [tokenizeAux]
  simp [hsp, h1, h2, h3, h4, h5, h6, h7, hc, hspan, hfuel]

/-- A string matching the identifier pattern `[A-Za-z][A-Za-z0-9_]*`. -/
def isIdentStr (u : String) : Bool :=
  match u.data with
  | [] => false
  | c :: rest => isAlphaChar c && rest.all isIdentChar

/-- The possible outputs of the tokenizer: the seven operator symbols or an
identifier. -/
def bigTok (u : String) : Prop :=
  u ∈ (["~", "&", "|", "(", ")", "->", "<->"] : List String) ∨ isIdentStr u = true

theorem tokenizeAux_bigTok :
    ∀ (f : Nat) (cs : List Char) (u : String), u ∈ tokenizeAux f cs → bigTok u := by
  intro f
  induction f with
  | zero => intro cs u h; simp [tokenizeAux] at h
  | succ g ih =>
    intro cs u h
    cases cs with
    | nil => simp [tokenizeAux] at h
    | cons c cs =>
      simp only [tokenizeAux] at h
      split_ifs at h with h1 h2 h3 h4 h5 h6 h7 h8 h9 h10 h11
      · exact ih cs u h
      · rcases List.mem_cons.mp h with rfl | hm
        · exact .inl (by simp)
        · exact ih cs u hm
      · rcases List.mem_cons.mp h with rfl | hm
        · exact .inl (by simp)
        · exact ih cs u hm
      · rcases List.mem_cons.mp h with rfl | hm
        · exact .inl (by simp)
        · exact ih cs u hm
      · rcases List.mem_cons.mp h with rfl | hm
        · exact .inl (by simp)
        · exact ih cs u hm
      · rcases List.mem_cons.mp h with rfl | hm
        · exact .inl (by simp)
        · exact ih cs u hm
      · rcases List.mem_cons.mp h with rfl | hm
        · exact .inl (by simp)
        · exact ih cs.tail u hm
      · exact ih cs u h
      · rcases List.mem_cons.mp h with rfl | hm
        · exact .inl (by simp)
        · exact ih cs.tail.tail u hm
      · exact ih cs u h
      · rcases List.mem_cons.mp h with rfl | hm
        · exact .inr (by simp [isIdentStr, h11, identSpan_fst_all])
        · exact ih (identSpan cs).2 u hm
      · exact ih cs u h

theorem tokenize_bigTok (s : String) (u : String) (h : u ∈ tokenize s) : bigTok u :=
  tokenizeAux_bigTok s.data.length s.data u h

/-! ### Support lemmas for claim C6: rendering and re-tokenizing -/

/-- Tokens that can occur as parser-produced variable names: any tokenizer
token other than `"~"` and `"("` (which `parse_not` and `parse_atom` never
store in a `Var`). -/
def goodTok (u : String) : Prop :=
  u ∈ (["&", "|", "->", "<->", ")"] : List String) ∨ isIdentStr u = true

/-- An expression all of whose variable names are real (`some`)
parser-producible tokens. -/
def goodExpr (e : Expr) : Prop :=
  ∀ n ∈ e.vars, ∃ u, n = some u ∧ goodTok u

/-- The token list of the canonical rendering of an expression (meaningful
under `goodExpr`). -/
def rTokens : Expr → List String
  | .var none => []
  | .var (some u) => [u]
  | .not e => "~" :: rTokens e
  | .and l r => "(" :: (rTokens l ++ ("&" :: (rTokens r ++ [")"])))
  | .or l r => "(" :: (rTokens l ++ ("|" :: (rTokens r ++ [")"])))
  | .implies l r => "(" :: (rTokens l ++ ("->" :: (rTokens r ++ [")"])))
  | .iff l r => "(" :: (rTokens l ++ ("<->" :: (rTokens r ++ [")"])))

/-- Character lists that may legally follow a rendered sub-expression: end of
input, a space, or a closing parenthesis. -/
def sepChars (cs : List Char) : Prop :=
  cs = [] ∨ (∃ cs1, cs = ' ' :: cs1) ∨ (∃ cs1, cs = ')' :: cs1)

theorem tokenizeChars_goodTok (u : String) (hu : goodTok u) (cs : List Char)
    (hsep : sepChars cs) :
    tokenizeChars (u.data ++ cs) = u :: tokenizeChars cs := by
  have hcs : ∀ c1, cs.head? = some c1 → isIdentChar c1 = false := by
    rcases hsep with rfl | ⟨cs1, rfl⟩ | ⟨cs1, rfl⟩
    · intro c1 h; simp at h
    · intro c1 h; simp at h; subst h; decide
    · intro c1 h; simp at h; subst h; decide
  rcases hu with hop | hid
  · simp only [List.mem_cons, List.not_mem_nil, or_false] at hop
    rcases hop with rfl | rfl | rfl | rfl | rfl
    · rw [show ("&" : String).data = ['&'] from rfl, List.singleton_append]
      exact tokenizeChars_amp cs
    · rw [show ("|" : String).data = ['|'] from rfl, List.singleton_append]
      exact tokenizeChars_bar cs
    · rw [show ("->" : String).data = ['-', '>'] from rfl, List.cons_append,
        List.singleton_append]
      exact tokenizeChars_arrow cs
    · rw [show ("<->" : String).data = ['<', '-', '>'] from rfl, List.cons_append,
        List.cons_append, List.singleton_append]
      exact tokenizeChars_iffArrow cs
    · rw [show (")" : String).data = [')'] from rfl, List.singleton_append]
      exact tokenizeChars_rparen cs
  · rcases hdata : u.data with _ | ⟨c, tail⟩
    · rw [isIdentStr, hdata] at hid
      exact absurd hid (by simp)
    · rw [isIdentStr, hdata] at hid
      simp only [Bool.and_eq_true] at hid
      rw [tokenizeChars_ident c tail cs hid.1 hid.2 hcs]
      congr 1
      rw [← hdata]

theorem strTokens (e : Expr) :
    goodExpr e → ∀ t, Expr.str e = some t → ∀ cs, sepChars cs →
      tokenizeChars (t.data ++ cs) = rTokens e ++ tokenizeChars cs := by
  induction e with
  | var name =>
    intro hg t ht cs hsep
    obtain ⟨u, rfl, hu⟩ := hg name (by simp [Expr.vars])
    have htu : u = t := by simpa [Expr.str] using ht
    subst htu
    rw [tokenizeChars_goodTok u hu cs hsep, rTokens, List.singleton_append]
  | not e ihe =>
    intro hg t ht cs hsep
    simp only [Expr.str] at ht
    rcases Option.map_eq_some'.mp ht with ⟨s0, hs0, rfl⟩
    rw [show ("~" ++ s0).data = '~' :: s0.data from by
        rw [String.data_append]; rfl,
      List.cons_append, tokenizeChars_tilde, ihe hg s0 hs0 cs hsep, rTokens,
      List.cons_append]
  | and l r ihl ihr =>
    intro hg t ht cs hsep
    simp only [Expr.str] at ht
    rcases Option.bind_eq_some.mp ht with ⟨ls, hls, ht2⟩
    rcases Option.map_eq_some'.mp ht2 with ⟨rs, hrs, rfl⟩
    have hgl : goodExpr l := fun n hn => hg n (by simp [Expr.vars, List.mem_union_iff, hn])
    have hgr : goodExpr r := fun n hn => hg n (by simp [Expr.vars, List.mem_union_iff, hn])
    have hdata : ("(" ++ ls ++ " & " ++ rs ++ ")").data ++ cs =
        '(' :: (ls.data ++ (' ' :: '&' :: ' ' :: (rs.data ++ (')' :: cs)))) := by
      simp only [String.data_append, show ("(" : String).data = ['('] from rfl,
        show (" & " : String).data = [' ', '&', ' '] from rfl,
        show (")" : String).data = [')'] from rfl, List.append_assoc,
        List.cons_append, List.singleton_append, List.nil_append]
    rw [hdata, tokenizeChars_lparen,
      ihl hgl ls hls _ (.inr (.inl ⟨_, rfl⟩)),
      tokenizeChars_space ' ' _ (by decide), tokenizeChars_amp,
      tokenizeChars_space ' ' _ (by decide),
      ihr hgr rs hrs _ (.inr (.inr ⟨cs, rfl⟩)),
      tokenizeChars_rparen, rTokens]
    simp
  | or l r ihl ihr =>
    intro hg t ht cs hsep
    simp only [Expr.str] at ht
    rcases Option.bind_eq_some.mp ht with ⟨ls, hls, ht2⟩
    rcases Option.map_eq_some'.mp ht2 with ⟨rs, hrs, rfl⟩
    have hgl : goodExpr l := fun n hn => hg n (by simp [Expr.vars, List.mem_union_iff, hn])
    have hgr : goodExpr r := fun n hn => hg n (by simp [Expr.vars, List.mem_union_iff, hn])
    have hdata : ("(" ++ ls ++ " | " ++ rs ++ ")").data ++ cs =
        '(' :: (ls.data ++ (' ' :: '|' :: ' ' :: (rs.data ++ (')' :: cs)))) := by
      simp only [String.data_append, show ("(" : String).data = ['('] from rfl,
        show (" | " : String).data = [' ', '|', ' '] from rfl,
        show (")" : String).data = [')'] from rfl, List.append_assoc,
        List.cons_append, List.singleton_append, List.nil_append]
    rw [hdata, tokenizeChars_lparen,
      ihl hgl ls hls _ (.inr (.inl ⟨_, rfl⟩)),
      tokenizeChars_space ' ' _ (by decide), tokenizeChars_bar,
      tokenizeChars_space ' ' _ (by decide),
      ihr hgr rs hrs _ (.inr (.inr ⟨cs, rfl⟩)),
      tokenizeChars_rparen, rTokens]
    simp
  | implies l r ihl ihr =>
    intro hg t ht cs hsep
    simp only [Expr.str] at ht
    rcases Option.bind_eq_some.mp ht with ⟨ls, hls, ht2⟩
    rcases Option.map_eq_some'.mp ht2 with ⟨rs, hrs, rfl⟩
    have hgl : goodExpr l := fun n hn => hg n (by simp [Expr.vars, List.mem_union_iff, hn])
    have hgr : goodExpr r := fun n hn => hg n (by simp [Expr.vars, List.mem_union_iff, hn])
    have hdata : ("(" ++ ls ++ " -> " ++ rs ++ ")").data ++ cs =
        '(' :: (ls.data ++ (' ' :: '-' :: '>' :: ' ' :: (rs.data ++ (')' :: cs)))) := by
      simp only [String.data_append, show ("(" : String).data = ['('] from rfl,
        show (" -> " : String).data = [' ', '-', '>', ' '] from rfl,
        show (")" : String).data = [')'] from rfl, List.append_assoc,
        List.cons_append, List.singleton_append, List.nil_append]
    rw [hdata, tokenizeChars_lparen,
      ihl hgl ls hls _ (.inr (.inl ⟨_, rfl⟩)),
      tokenizeChars_space ' ' _ (by decide), tokenizeChars_arrow,
      tokenizeChars_space ' ' _ (by decide),
      ihr hgr rs hrs _ (.inr (.inr ⟨cs, rfl⟩)),
      tokenizeChars_rparen, rTokens]
    simp
  | iff l r ihl ihr =>
    intro hg t ht cs hsep
    simp only [Expr.str] at ht
    rcases Option.bind_eq_some.mp ht with ⟨ls, hls, ht2⟩
    rcases Option.map_eq_some'.mp ht2 with ⟨rs, hrs, rfl⟩
    have hgl : goodExpr l := fun n hn => hg n (by simp [Expr.vars, List.mem_union_iff, hn])
    have hgr : goodExpr r := fun n hn => hg n (by simp [Expr.vars, List.mem_union_iff, hn])
    have hdata : ("(" ++ ls ++ " <-> " ++ rs ++ ")").data ++ cs =
        '(' :: (ls.data ++ (' ' :: '<' :: '-' :: '>' :: ' ' :: (rs.data ++ (')' :: cs)))) := by
      simp only [String.data_append, show ("(" : String).data = ['('] from rfl,
        show (" <-> " : String).data = [' ', '<', '-', '>', ' '] from rfl,
        show (")" : String).data = [')'] from rfl, List.append_assoc,
        List.cons_append, List.singleton_append, List.nil_append]
    rw [hdata, tokenizeChars_lparen,
      ihl hgl ls hls _ (.inr (.inl ⟨_, rfl⟩)),
      tokenizeChars_space ' ' _ (by decide), tokenizeChars_iffArrow,
      tokenizeChars_space ' ' _ (by decide),
      ihr hgr rs hrs _ (.inr (.inr ⟨cs, rfl⟩)),
      tokenizeChars_rparen, rTokens]
    simp

/-! ### Support lemmas for claim C6: parser stepping -/

theorem parse_atom_step_var (f : Nat) (t : String) (ts : List String) (h : t ≠ "(") :
    parse_atom (f + 1) (t :: ts) = .ok (.var (some t), ts) := by
  simp [parse_atom, h]

theorem parse_atom_step_paren (f : Nat) (ts rest : List String) (e : Expr)
    (h : parse_iff f ts = .ok (e, ")" :: rest)) :
    parse_atom (f + 1) ("(" :: ts) = .ok (e, rest) := by
  simp [parse_atom, h]

theorem parse_not_step_other (f : Nat) (ts : List String)
    (h : ts.head? ≠ some "~") :
    parse_not (f + 1) ts = parse_atom f ts := by
  cases ts with
  | nil => simp [parse_not]
  | cons t rest =>
    have ht : t ≠ "~" := fun hh => h (by simp [hh])
    simp [parse_not, ht]

theorem parse_not_step_tilde (f : Nat) (ts ts1 : List String) (e : Expr)
    (h : parse_not f ts = .ok (e, ts1)) :
    parse_not (f + 1) ("~" :: ts) = .ok (.not e, ts1) := by
  simp [parse_not, h]

theorem parse_and_step (f : Nat) (ts ts1 : List String) (l : Expr)
    (h : parse_not f ts = .ok (l, ts1)) :
    parse_and (f + 1) ts = andLoop f l ts1 := by
  simp [parse_and, h]

theorem andLoop_stop (f : Nat) (l : Expr) (ts : List String)
    (h : ts.head? ≠ some "&") : andLoop (f + 1) l ts = .ok (l, ts) := by
  cases ts with
  | nil => simp [andLoop]
  | cons t rest =>
    have ht : t ≠ "&" := fun hh => h (by simp [hh])
    simp [andLoop, ht]

theorem andLoop_step (f : Nat) (l r : Expr) (ts ts1 : List String)
    (h : parse_not f ts = .ok (r, ts1)) :
    andLoop (f + 1) l ("&" :: ts) = andLoop f (.and l r) ts1 := by
  simp [andLoop, h]

theorem parse_or_step (f : Nat) (ts ts1 : List String) (l : Expr)
    (h : parse_and f ts = .ok (l, ts1)) :
    parse_or (f + 1) ts = orLoop f l ts1 := by
  simp [parse_or, h]

theorem orLoop_stop (f : Nat) (l : Expr) (ts : List String)
    (h : ts.head? ≠ some "|") : orLoop (f + 1) l ts = .ok (l, ts) := by
  cases ts with
  | nil => simp [orLoop]
  | cons t rest =>
    have ht : t ≠ "|" := fun hh => h (by simp [hh])
    simp [orLoop, ht]

theorem orLoop_step (f : Nat) (l r : Expr) (ts ts1 : List String)
    (h : parse_and f ts = .ok (r, ts1)) :
    orLoop (f + 1) l ("|" :: ts) = orLoop f (.or l r) ts1 := by
  simp [orLoop, h]

theorem parse_implies_step (f : Nat) (ts ts1 : List String) (l : Expr)
    (h : parse_or f ts = .ok (l, ts1)) :
    parse_implies (f + 1) ts = impliesLoop f l ts1 := by
  simp [parse_implies, h]

theorem impliesLoop_stop (f : Nat) (l : Expr) (ts : List String)
    (h : ts.head? ≠ some "->") : impliesLoop (f + 1) l ts = .ok (l, ts) := by
  cases ts with
  | nil => simp [impliesLoop]
  | cons t rest =>
    have ht : t ≠ "->" := fun hh => h (by simp [hh])
    simp [impliesLoop, ht]

theorem impliesLoop_step (f : Nat) (l r : Expr) (ts ts1 : List String)
    (h : parse_or f ts = .ok (r, ts1)) :
    impliesLoop (f + 1) l ("->" :: ts) = impliesLoop f (.implies l r) ts1 := by
  simp [impliesLoop, h]

theorem parse_iff_step (f : Nat) (ts ts1 : List String) (l : Expr)
    (h : parse_implies f ts = .ok (l, ts1)) :
    parse_iff (f + 1) ts = iffLoop f l ts1 := by
  simp [parse_iff, h]

theorem iffLoop_stop (f : Nat) (l : Expr) (ts : List String)
    (h : ts.head? ≠ some "<->") : iffLoop (f + 1) l ts = .ok (l, ts) := by
  cases ts with
  | nil => simp [iffLoop]
  | cons t rest =>
    have ht : t ≠ "<->" := fun hh => h (by simp [hh])
    simp [iffLoop, ht]

theorem iffLoop_step (f : Nat) (l r : Expr) (ts ts1 : List String)
    (h : parse_implies f ts = .ok (r, ts1)) :
    iffLoop (f + 1) l ("<->" :: ts) = iffLoop f (.iff l r) ts1 := by
  simp [iffLoop, h]

/-! ### Support lemmas for claim C6: what the parser stores in variables -/

/-- Every token of the list is a possible tokenizer output. -/
def goodTokens (ts : List String) : Prop := ∀ u ∈ ts, bigTok u

/-- Every variable name of the expression is `None` or a tokenizer token
other than `"("` and `"~"`. -/
def niceVars (e : Expr) : Prop :=
  ∀ n ∈ e.vars, n = none ∨ ∃ u, n = some u ∧ bigTok u ∧ u ≠ "(" ∧ u ≠ "~"

theorem goodTokens_tail {t : String} {ts : List String} (h : goodTokens (t :: ts)) :
    goodTokens ts :=
  fun u hu => h u (List.mem_cons_of_mem t hu)

theorem niceVars_var_none : niceVars (.var none) := by
  intro n hn
  simp only [Expr.vars, List.mem_singleton] at hn
  exact .inl hn

theorem niceVars_var_some {t : String} (hb : bigTok t) (h1 : t ≠ "(") (h2 : t ≠ "~") :
    niceVars (.var (some t)) := by
  intro n hn
  simp only [Expr.vars, List.mem_singleton] at hn
  exact .inr ⟨t, hn, hb, h1, h2⟩

theorem niceVars_not {e : Expr} (h : niceVars e) : niceVars (.not e) :=
  fun n hn => h n hn

theorem niceVars_and {l r : Expr} (hl : niceVars l) (hr : niceVars r) :
    niceVars (.and l r) := by
  intro n hn
  simp only [Expr.vars] at hn
  rcases List.mem_union_iff.mp hn with h | h
  · exact hl n h
  · exact hr n h

theorem niceVars_or {l r : Expr} (hl : niceVars l) (hr : niceVars r) :
    niceVars (.or l r) := by
  intro n hn
  simp only [Expr.vars] at hn
  rcases List.mem_union_iff.mp hn with h | h
  · exact hl n h
  · exact hr n h

theorem niceVars_implies {l r : Expr} (hl : niceVars l) (hr : niceVars r) :
    niceVars (.implies l r) := by
  intro n hn
  simp only [Expr.vars] at hn
  rcases List.mem_union_iff.mp hn with h | h
  · exact hl n h
  · exact hr n h

theorem niceVars_iff {l r : Expr} (hl : niceVars l) (hr : niceVars r) :
    niceVars (.iff l r) := by
  intro n hn
  simp only [Expr.vars] at hn
  rcases List.mem_union_iff.mp hn with h | h
  · exact hl n h
  · exact hr n h

theorem parse_inv :
    ∀ f : Nat,
      (∀ ts e ts1, goodTokens ts → ts.head? ≠ some "~" →
        parse_atom f ts = .ok (e, ts1) → goodTokens ts1 ∧ niceVars e) ∧
      (∀ ts e ts1, goodTokens ts →
        parse_not f ts = .ok (e, ts1) → goodTokens ts1 ∧ niceVars e) ∧
      (∀ ts e ts1 l, goodTokens ts → niceVars l →
        andLoop f l ts = .ok (e, ts1) → goodTokens ts1 ∧ niceVars e) ∧
      (∀ ts e ts1, goodTokens ts →
        parse_and f ts = .ok (e, ts1) → goodTokens ts1 ∧ niceVars e) ∧
      (∀ ts e ts1 l, goodTokens ts → niceVars l →
        orLoop f l ts = .ok (e, ts1) → goodTokens ts1 ∧ niceVars e) ∧
      (∀ ts e ts1, goodTokens ts →
        parse_or f ts = .ok (e, ts1) → goodTokens ts1 ∧ niceVars e) ∧
      (∀ ts e ts1 l, goodTokens ts → niceVars l →
        impliesLoop f l ts = .ok (e, ts1) → goodTokens ts1 ∧ niceVars e) ∧
      (∀ ts e ts1, goodTokens ts →
        parse_implies f ts = .ok (e, ts1) → goodTokens ts1 ∧ niceVars e) ∧
      (∀ ts e ts1 l, goodTokens ts → niceVars l →
        iffLoop f l ts = .ok (e, ts1) → goodTokens ts1 ∧ niceVars e) ∧
      (∀ ts e ts1, goodTokens ts →
        parse_iff f ts = .ok (e, ts1) → goodTokens ts1 ∧ niceVars e) := by
  intro f
  induction f with
  | zero =>
    refine ⟨?_, ?_, ?_, ?_, ?_, ?_, ?_, ?_, ?_, ?_⟩
    · intro ts e ts1 _ _ h; simp [parse_atom] at h
    · intro ts e ts1 _ h; simp [parse_not] at h
    · intro ts e ts1 l _ _ h; simp [andLoop] at h
    · intro ts e ts1 _ h; simp [parse_and] at h
    · intro ts e ts1 l _ _ h; simp [orLoop] at h
    · intro ts e ts1 _ h; simp [parse_or] at h
    · intro ts e ts1 l _ _ h; simp [impliesLoop] at h
    · intro ts e ts1 _ h; simp [parse_implies] at h
    · intro ts e ts1 l _ _ h; simp [iffLoop] at h
    · intro ts e ts1 _ h; simp [parse_iff] at h
  | succ g ih =>
    obtain ⟨iha, ihn, ihal, ihand, ihol, ihor, ihil, ihimp, ihfl, ihiff⟩ := ih
    have hatom : ∀ ts e ts1, goodTokens ts → ts.head? ≠ some "~" →
        parse_atom (g + 1) ts = .ok (e, ts1) → goodTokens ts1 ∧ niceVars e := by
      intro ts e ts1 hg hh h
      cases ts with
      | nil =>
        simp only [parse_atom, Except.ok.injEq, Prod.mk.injEq] at h
        obtain ⟨rfl, rfl⟩ := h
        exact ⟨hg, niceVars_var_none⟩
      | cons t rest =>
        by_cases ht : t = "("
        · subst ht
          rcases hi : parse_iff g rest with m | ⟨e0, ts0⟩
          · simp [parse_atom, hi] at h
          · rcases ts0 with _ | ⟨t0, rest0⟩
            · simp [parse_atom, hi] at h
            · by_cases ht0 : t0 = ")"
              · subst ht0
                simp only [parse_atom, hi, Except.ok.injEq, Prod.mk.injEq] at h
                obtain ⟨rfl, rfl⟩ := h
                have := ihiff rest e0 (")" :: rest0) (goodTokens_tail hg) hi
                exact ⟨goodTokens_tail this.1, this.2⟩
              · simp [parse_atom, hi, ht0] at h
        · simp only [parse_atom_step_var g t rest ht, Except.ok.injEq,
            Prod.mk.injEq] at h
          obtain ⟨rfl, rfl⟩ := h
          have hb : bigTok t := hg t (List.mem_cons_self t rest)
          have ht2 : t ≠ "~" := fun hh2 => hh (by simp [hh2])
          exact ⟨goodTokens_tail hg, niceVars_var_some hb ht ht2⟩
    have hnot : ∀ ts e ts1, goodTokens ts →
        parse_not (g + 1) ts = .ok (e, ts1) → goodTokens ts1 ∧ niceVars e := by
      intro ts e ts1 hg h
      cases ts with
      | nil =>
        rw [parse_not_step_other g [] (by simp)] at h
        exact iha [] e ts1 hg (by simp) h
      | cons t rest =>
        by_cases ht : t = "~"
        · subst ht
          rcases hn : parse_not g rest with m | ⟨e0, ts0⟩
          · simp [parse_not, hn] at h
          · rw [parse_not_step_tilde g rest ts0 e0 hn] at h
            simp only [Except.ok.injEq, Prod.mk.injEq] at h
            obtain ⟨rfl, rfl⟩ := h
            have := ihn rest e0 ts0 (goodTokens_tail hg) hn
            exact ⟨this.1, niceVars_not this.2⟩
        · rw [parse_not_step_other g (t :: rest) (by simp [ht])] at h
          exact iha (t :: rest) e ts1 hg (by simp [ht]) h
    have handLoop : ∀ ts e ts1 l, goodTokens ts → niceVars l →
        andLoop (g + 1) l ts = .ok (e, ts1) → goodTokens ts1 ∧ niceVars e := by
      intro ts e ts1 l hg hl h
      cases ts with
      | nil =>
        rw [andLoop_stop g l [] (by simp)] at h
        simp only [Except.ok.injEq, Prod.mk.injEq] at h
        obtain ⟨rfl, rfl⟩ := h
        exact ⟨hg, hl⟩
      | cons t rest =>
        by_cases ht : t = "&"
        · subst ht
          rcases hn : parse_not g rest with m | ⟨r, ts0⟩
          · simp [andLoop, hn] at h
          · rw [andLoop_step g l r rest ts0 hn] at h
            have hsub := ihn rest r ts0 (goodTokens_tail hg) hn
            exact ihal ts0 e ts1 (.and l r) hsub.1 (niceVars_and hl hsub.2) h
        · rw [andLoop_stop g l (t :: rest) (by simp [ht])] at h
          simp only [Except.ok.injEq, Prod.mk.injEq] at h
          obtain ⟨rfl, rfl⟩ := h
          exact ⟨hg, hl⟩
    have hand : ∀ ts e ts1, goodTokens ts →
        parse_and (g + 1) ts = .ok (e, ts1) → goodTokens ts1 ∧ niceVars e := by
      intro ts e ts1 hg h
      rcases hn : parse_not g ts with m | ⟨l, ts0⟩
      · simp [parse_and, hn] at h
      · rw [parse_and_step g ts ts0 l hn] at h
        have hsub := ihn ts l ts0 hg hn
        exact ihal ts0 e ts1 l hsub.1 hsub.2 h
    have horLoop : ∀ ts e ts1 l, goodTokens ts → niceVars l →
        orLoop (g + 1) l ts = .ok (e, ts1) → goodTokens ts1 ∧ niceVars e := by
      intro ts e ts1 l hg hl h
      cases ts with
      | nil =>
        rw [orLoop_stop g l [] (by simp)] at h
        simp only [Except.ok.injEq, Prod.mk.injEq] at h
        obtain ⟨rfl, rfl⟩ := h
        exact ⟨hg, hl⟩
      | cons t rest =>
        by_cases ht : t = "|"
        · subst ht
          rcases hn : parse_and g rest with m | ⟨r, ts0⟩
          · simp [orLoop, hn] at h
          · rw [orLoop_step g l r rest ts0 hn] at h
            have hsub := ihand rest r ts0 (goodTokens_tail hg) hn
            exact ihol ts0 e ts1 (.or l r) hsub.1 (niceVars_or hl hsub.2) h
        · rw [orLoop_stop g l (t :: rest) (by simp [ht])] at h
          simp only [Except.ok.injEq, Prod.mk.injEq] at h
          obtain ⟨rfl, rfl⟩ := h
          exact ⟨hg, hl⟩
    have hor : ∀ ts e ts1, goodTokens ts →
        parse_or (g + 1) ts = .ok (e, ts1) → goodTokens ts1 ∧ niceVars e := by
      intro ts e ts1 hg h
      rcases hn : parse_and g ts with m | ⟨l, ts0⟩
      · simp [parse_or, hn] at h
      · rw [parse_or_step g ts ts0 l hn] at h
        have hsub := ihand ts l ts0 hg hn
        exact ihol ts0 e ts1 l hsub.1 hsub.2 h
    have himpLoop : ∀ ts e ts1 l, goodTokens ts → niceVars l →
        impliesLoop (g + 1) l ts = .ok (e, ts1) → goodTokens ts1 ∧ niceVars e := by
      intro ts e ts1 l hg hl h
      cases ts with
      | nil =>
        rw [impliesLoop_stop g l [] (by simp)] at h
        simp only [Except.ok.injEq, Prod.mk.injEq] at h
        obtain ⟨rfl, rfl⟩ := h
        exact ⟨hg, hl⟩
      | cons t rest =>
        by_cases ht : t = "->"
        · subst ht
          rcases hn : parse_or g rest with m | ⟨r, ts0⟩
          · simp [impliesLoop, hn] at h
          · rw [impliesLoop_step g l r rest ts0 hn] at h
            have hsub := ihor rest r ts0 (goodTokens_tail hg) hn
            exact ihil ts0 e ts1 (.implies l r) hsub.1 (niceVars_implies hl hsub.2) h
        · rw [impliesLoop_stop g l (t :: rest) (by simp [ht])] at h
          simp only [Except.ok.injEq, Prod.mk.injEq] at h
          obtain ⟨rfl, rfl⟩ := h
          exact ⟨hg, hl⟩
    have himp : ∀ ts e ts1, goodTokens ts →
        parse_implies (g + 1) ts = .ok (e, ts1) → goodTokens ts1 ∧ niceVars e := by
      intro ts e ts1 hg h
      rcases hn : parse_or g ts with m | ⟨l, ts0⟩
      · simp [parse_implies, hn] at h
      · rw [parse_implies_step g ts ts0 l hn] at h
        have hsub := ihor ts l ts0 hg hn
        exact ihil ts0 e ts1 l hsub.1 hsub.2 h
    have hiffLoop : ∀ ts e ts1 l, goodTokens ts → niceVars l →
        iffLoop (g + 1) l ts = .ok (e, ts1) → goodTokens ts1 ∧ niceVars e := by
      intro ts e ts1 l hg hl h
      cases ts with
      | nil =>
        rw [iffLoop_stop g l [] (by simp)] at h
        simp only [Except.ok.injEq, Prod.mk.injEq] at h
        obtain ⟨rfl, rfl⟩ := h
        exact ⟨hg, hl⟩
      | cons t rest =>
        by_cases ht : t = "<->"
        · subst ht
          rcases hn : parse_implies g rest with m | ⟨r, ts0⟩
          · simp [iffLoop, hn] at h
          · rw [iffLoop_step g l r rest ts0 hn] at h
            have hsub := ihimp rest r ts0 (goodTokens_tail hg) hn
            exact ihfl ts0 e ts1 (.iff l r) hsub.1 (niceVars_iff hl hsub.2) h
        · rw [iffLoop_stop g l (t :: rest) (by simp [ht])] at h
          simp only [Except.ok.injEq, Prod.mk.injEq] at h
          obtain ⟨rfl, rfl⟩ := h
          exact ⟨hg, hl⟩
    have hiff : ∀ ts e ts1, goodTokens ts →
        parse_iff (g + 1) ts = .ok (e, ts1) → goodTokens ts1 ∧ niceVars e := by
      intro ts e ts1 hg h
      rcases hn : parse_implies g ts with m | ⟨l, ts0⟩
      · simp [parse_iff, hn] at h
      · rw [parse_iff_step g ts ts0 l hn] at h
        have hsub := ihimp ts l ts0 hg hn
        exact ihfl ts0 e ts1 l hsub.1 hsub.2 h
    exact ⟨hatom, hnot, handLoop, hand, horLoop, hor, himpLoop, himp, hiffLoop, hiff⟩

/-! ### Support lemmas for claim C6: the reparse round trip -/

/-- Size of an expression tree, used to budget parser fuel. -/
def Expr.size : Expr → Nat
  | .var _ => 1
  | .not e => e.size + 1
  | .and l r => l.size + r.size + 1
  | .or l r => l.size + r.size + 1
  | .implies l r => l.size + r.size + 1
  | .iff l r => l.size + r.size + 1

theorem goodTok_ne_tilde {u : String} (h : goodTok u) : u ≠ "~" := by
  rintro rfl
  rcases h with hop | hid
  · exact absurd hop (by decide)
  · exact absurd hid (by decide)

theorem goodTok_ne_lparen {u : String} (h : goodTok u) : u ≠ "(" := by
  rintro rfl
  rcases h with hop | hid
  · exact absurd hop (by decide)
  · exact absurd hid (by decide)

theorem parse_not_rTokens :
    ∀ (e : Expr), goodExpr e → ∀ (rest : List String) (f : Nat),
      10 * e.size ≤ f → parse_not f (rTokens e ++ rest) = .ok (e, rest) := by
  intro e
  induction e with
  | var name =>
    intro hg rest f hf
    obtain ⟨u, rfl, hu⟩ := hg name (by simp [Expr.vars])
    obtain ⟨g, rfl⟩ : ∃ g, f = g + 2 := ⟨f - 2, by simp [Expr.size] at hf; omega⟩
    rw [rTokens, List.singleton_append, show g + 2 = (g + 1) + 1 from rfl,
      parse_not_step_other (g + 1) (u :: rest)
        (by simp [goodTok_ne_tilde hu])]
    exact parse_atom_step_var g u rest (goodTok_ne_lparen hu)
  | not e ihe =>
    intro hg rest f hf
    have hge : goodExpr e := fun n hn => hg n hn
    obtain ⟨g, rfl⟩ : ∃ g, f = g + 1 := ⟨f - 1, by simp [Expr.size] at hf; omega⟩
    rw [rTokens, List.cons_append]
    exact parse_not_step_tilde g _ rest e
      (ihe hge rest g (by simp [Expr.size] at hf; omega))
  | and l r ihl ihr =>
    intro hg rest f hf
    have hgl : goodExpr l := fun n hn => hg n (by simp [Expr.vars, List.mem_union_iff, hn])
    have hgr : goodExpr r := fun n hn => hg n (by simp [Expr.vars, List.mem_union_iff, hn])
    have hsz : 10 * l.size + 10 * r.size + 10 ≤ f := by simp [Expr.size] at hf; omega
    obtain ⟨g, rfl⟩ : ∃ g, f = g + 10 := ⟨f - 10, by omega⟩
    rw [rTokens]
    simp only [List.cons_append, List.append_assoc, List.singleton_append]
    have hl := ihl hgl ("&" :: (rTokens r ++ (")" :: rest))) (g + 4) (by omega)
    have hr := ihr hgr (")" :: rest) (g + 3) (by omega)
    have hand : parse_and (g + 5) (rTokens l ++ ("&" :: (rTokens r ++ (")" :: rest)))) =
        .ok (.and l r, ")" :: rest) := by
      rw [show g + 5 = (g + 4) + 1 from rfl, parse_and_step (g + 4) _ _ l hl,
        show g + 4 = (g + 3) + 1 from rfl, andLoop_step (g + 3) l r _ _ hr,
        show g + 3 = (g + 2) + 1 from rfl, andLoop_stop (g + 2) _ _ (by simp)]
    have hor : parse_or (g + 6) (rTokens l ++ ("&" :: (rTokens r ++ (")" :: rest)))) =
        .ok (.and l r, ")" :: rest) := by
      rw [show g + 6 = (g + 5) + 1 from rfl, parse_or_step (g + 5) _ _ _ hand,
        show g + 5 = (g + 4) + 1 from rfl, orLoop_stop (g + 4) _ _ (by simp)]
    have himp : parse_implies (g + 7)
        (rTokens l ++ ("&" :: (rTokens r ++ (")" :: rest)))) =
        .ok (.and l r, ")" :: rest) := by
      rw [show g + 7 = (g + 6) + 1 from rfl, parse_implies_step (g + 6) _ _ _ hor,
        show g + 6 = (g + 5) + 1 from rfl, impliesLoop_stop (g + 5) _ _ (by simp)]
    have hiff : parse_iff (g + 8)
        (rTokens l ++ ("&" :: (rTokens r ++ (")" :: rest)))) =
        .ok (.and l r, ")" :: rest) := by
      rw [show g + 8 = (g + 7) + 1 from rfl, parse_iff_step (g + 7) _ _ _ himp,
        show g + 7 = (g + 6) + 1 from rfl, iffLoop_stop (g + 6) _ _ (by simp)]
    rw [show g + 10 = (g + 9) + 1 from rfl,
      parse_not_step_other (g + 9) _ (by simp),
      show g + 9 = (g + 8) + 1 from rfl]
    exact parse_atom_step_paren (g + 8) _ rest (.and l r) hiff
  | or l r ihl ihr =>
    intro hg rest f hf
    have hgl : goodExpr l := fun n hn => hg n (by simp [Expr.vars, List.mem_union_iff, hn])
    have hgr : goodExpr r := fun n hn => hg n (by simp [Expr.vars, List.mem_union_iff, hn])
    have hsz : 10 * l.size + 10 * r.size + 10 ≤ f := by simp [Expr.size] at hf; omega
    obtain ⟨g, rfl⟩ : ∃ g, f = g + 10 := ⟨f - 10, by omega⟩
    rw [rTokens]
    simp only [List.cons_append, List.append_assoc, List.singleton_append]
    have hl := ihl hgl ("|" :: (rTokens r ++ (")" :: rest))) (g + 4) (by omega)
    have hr := ihr hgr (")" :: rest) (g + 3) (by omega)
    have handl : parse_and (g + 5) (rTokens l ++ ("|" :: (rTokens r ++ (")" :: rest)))) =
        .ok (l, "|" :: (rTokens r ++ (")" :: rest))) := by
      rw [show g + 5 = (g + 4) + 1 from rfl, parse_and_step (g + 4) _ _ l hl,
        show g + 4 = (g + 3) + 1 from rfl, andLoop_stop (g + 3) _ _ (by simp)]
    have handr : parse_and (g + 4) (rTokens r ++ (")" :: rest)) =
        .ok (r, ")" :: rest) := by
      rw [show g + 4 = (g + 3) + 1 from rfl, parse_and_step (g + 3) _ _ r hr,
        show g + 3 = (g + 2) + 1 from rfl, andLoop_stop (g + 2) _ _ (by simp)]
    have hor : parse_or (g + 6) (rTokens l ++ ("|" :: (rTokens r ++ (")" :: rest)))) =
        .ok (.or l r, ")" :: rest) := by
      rw [show g + 6 = (g + 5) + 1 from rfl, parse_or_step (g + 5) _ _ _ handl,
        show g + 5 = (g + 4) + 1 from rfl, orLoop_step (g + 4) l r _ _ handr,
        show g + 4 = (g + 3) + 1 from rfl, orLoop_stop (g + 3) _ _ (by simp)]
    have himp : parse_implies (g + 7)
        (rTokens l ++ ("|" :: (rTokens r ++ (")" :: rest)))) =
        .ok (.or l r, ")" :: rest) := by
      rw [show g + 7 = (g + 6) + 1 from rfl, parse_implies_step (g + 6) _ _ _ hor,
        show g + 6 = (g + 5) + 1 from rfl, impliesLoop_stop (g + 5) _ _ (by simp)]
    have hiff : parse_iff (g + 8)
        (rTokens l ++ ("|" :: (rTokens r ++ (")" :: rest)))) =
        .ok (.or l r, ")" :: rest) := by
      rw [show g + 8 = (g + 7) + 1 from rfl, parse_iff_step (g + 7) _ _ _ himp,
        show g + 7 = (g + 6) + 1 from rfl, iffLoop_stop (g + 6) _ _ (by simp)]
    rw [show g + 10 = (g + 9) + 1 from rfl,
      parse_not_step_other (g + 9) _ (by simp),
      show g + 9 = (g + 8) + 1 from rfl]
    exact parse_atom_step_paren (g + 8) _ rest (.or l r) hiff
  | implies l r ihl ihr =>
    intro hg rest f hf
    have hgl : goodExpr l := fun n hn => hg n (by simp [Expr.vars, List.mem_union_iff, hn])
    have hgr : goodExpr r := fun n hn => hg n (by simp [Expr.vars, List.mem_union_iff, hn])
    have hsz : 10 * l.size + 10 * r.size + 10 ≤ f := by simp [Expr.size] at hf; omega
    obtain ⟨g, rfl⟩ : ∃ g, f = g + 10 := ⟨f - 10, by omega⟩
    rw [rTokens]
    simp only [List.cons_append, List.append_assoc, List.singleton_append]
    have hl := ihl hgl ("->" :: (rTokens r ++ (")" :: rest))) (g + 4) (by omega)
    have hr := ihr hgr (")" :: rest) (g + 3) (by omega)
    have horl : parse_or (g + 6) (rTokens l ++ ("->" :: (rTokens r ++ (")" :: rest)))) =
        .ok (l, "->" :: (rTokens r ++ (")" :: rest))) := by
      rw [show g + 6 = (g + 5) + 1 from rfl,
        parse_or_step (g + 5) _ _ l (by
          rw [show g + 5 = (g + 4) + 1 from rfl, parse_and_step (g + 4) _ _ l hl,
            show g + 4 = (g + 3) + 1 from rfl, andLoop_stop (g + 3) _ _ (by simp)]),
        show g + 5 = (g + 4) + 1 from rfl, orLoop_stop (g + 4) _ _ (by simp)]
    have horr : parse_or (g + 5) (rTokens r ++ (")" :: rest)) =
        .ok (r, ")" :: rest) := by
      rw [show g + 5 = (g + 4) + 1 from rfl,
        parse_or_step (g + 4) _ _ r (by
          rw [show g + 4 = (g + 3) + 1 from rfl, parse_and_step (g + 3) _ _ r hr,
            show g + 3 = (g + 2) + 1 from rfl, andLoop_stop (g + 2) _ _ (by simp)]),
        show g + 4 = (g + 3) + 1 from rfl, orLoop_stop (g + 3) _ _ (by simp)]
    have himp : parse_implies (g + 7)
        (rTokens l ++ ("->" :: (rTokens r ++ (")" :: rest)))) =
        .ok (.implies l r, ")" :: rest) := by
      rw [show g + 7 = (g + 6) + 1 from rfl, parse_implies_step (g + 6) _ _ _ horl,
        show g + 6 = (g + 5) + 1 from rfl, impliesLoop_step (g + 5) l r _ _ horr,
        show g + 5 = (g + 4) + 1 from rfl, impliesLoop_stop (g + 4) _ _ (by simp)]
    have hiff : parse_iff (g + 8)
        (rTokens l ++ ("->" :: (rTokens r ++ (")" :: rest)))) =
        .ok (.implies l r, ")" :: rest) := by
      rw [show g + 8 = (g + 7) + 1 from rfl, parse_iff_step (g + 7) _ _ _ himp,
        show g + 7 = (g + 6) + 1 from rfl, iffLoop_stop (g + 6) _ _ (by simp)]
    rw [show g + 10 = (g + 9) + 1 from rfl,
      parse_not_step_other (g + 9) _ (by simp),
      show g + 9 = (g + 8) + 1 from rfl]
    exact parse_atom_step_paren (g + 8) _ rest (.implies l r) hiff
  | iff l r ihl ihr =>
    intro hg rest f hf
    have hgl : goodExpr l := fun n hn => hg n (by simp [Expr.vars, List.mem_union_iff, hn])
    have hgr : goodExpr r := fun n hn => hg n (by simp [Expr.vars, List.mem_union_iff, hn])
    have hsz : 10 * l.size + 10 * r.size + 10 ≤ f := by simp [Expr.size] at hf; omega
    obtain ⟨g, rfl⟩ : ∃ g, f = g + 10 := ⟨f - 10, by omega⟩
    rw [rTokens]
    simp only [List.cons_append, List.append_assoc, List.singleton_append]
    have hl := ihl hgl ("<->" :: (rTokens r ++ (")" :: rest))) (g + 4) (by omega)
    have hr := ihr hgr (")" :: rest) (g + 3) (by omega)
    have himpl : parse_implies (g + 7)
        (rTokens l ++ ("<->" :: (rTokens r ++ (")" :: rest)))) =
        .ok (l, "<->" :: (rTokens r ++ (")" :: rest))) := by
      rw [show g + 7 = (g + 6) + 1 from rfl,
        parse_implies_step (g + 6) _ _ l (by
          rw [show g + 6 = (g + 5) + 1 from rfl,
            parse_or_step (g + 5) _ _ l (by
              rw [show g + 5 = (g + 4) + 1 from rfl, parse_and_step (g + 4) _ _ l hl,
                show g + 4 = (g + 3) + 1 from rfl, andLoop_stop (g + 3) _ _ (by simp)]),
            show g + 5 = (g + 4) + 1 from rfl, orLoop_stop (g + 4) _ _ (by simp)]),
        show g + 6 = (g + 5) + 1 from rfl, impliesLoop_stop (g + 5) _ _ (by simp)]
    have himpr : parse_implies (g + 6) (rTokens r ++ (")" :: rest)) =
        .ok (r, ")" :: rest) := by
      rw [show g + 6 = (g + 5) + 1 from rfl,
        parse_implies_step (g + 5) _ _ r (by
          rw [show g + 5 = (g + 4) + 1 from rfl,
            parse_or_step (g + 4) _ _ r (by
              rw [show g + 4 = (g + 3) + 1 from rfl, parse_and_step (g + 3) _ _ r hr,
                show g + 3 = (g + 2) + 1 from rfl, andLoop_stop (g + 2) _ _ (by simp)]),
            show g + 4 = (g + 3) + 1 from rfl, orLoop_stop (g + 3) _ _ (by simp)]),
        show g + 5 = (g + 4) + 1 from rfl, impliesLoop_stop (g + 4) _ _ (by simp)]
    have hiff : parse_iff (g + 8)
        (rTokens l ++ ("<->" :: (rTokens r ++ (")" :: rest)))) =
        .ok (.iff l r, ")" :: rest) := by
      rw [show g + 8 = (g + 7) + 1 from rfl, parse_iff_step (g + 7) _ _ _ himpl,
        show g + 7 = (g + 6) + 1 from rfl, iffLoop_step (g + 6) l r _ _ himpr,
        show g + 6 = (g + 5) + 1 from rfl, iffLoop_stop (g + 5) _ _ (by simp)]
    rw [show g + 10 = (g + 9) + 1 from rfl,
      parse_not_step_other (g + 9) _ (by simp),
      show g + 9 = (g + 8) + 1 from rfl]
    exact parse_atom_step_paren (g + 8) _ rest (.iff l r) hiff

theorem parse_iff_rTokens (e : Expr) (hg : goodExpr e) (f : Nat)
    (hf : 10 * e.size + 5 ≤ f) :
    parse_iff f (rTokens e) = .ok (e, []) := by
  obtain ⟨g, rfl⟩ : ∃ g, f = g + 5 := ⟨f - 5, by omega⟩
  have hn : parse_not (g + 1) (rTokens e ++ []) = .ok (e, []) :=
    parse_not_rTokens e hg [] (g + 1) (by omega)
  rw [List.append_nil] at hn
  have hand : parse_and (g + 2) (rTokens e) = .ok (e, []) := by
    rw [show g + 2 = (g + 1) + 1 from rfl, parse_and_step (g + 1) _ _ e hn,
      show g + 1 = g + 1 from rfl, andLoop_stop g _ _ (by simp)]
  have hor : parse_or (g + 3) (rTokens e) = .ok (e, []) := by
    rw [show g + 3 = (g + 2) + 1 from rfl, parse_or_step (g + 2) _ _ e hand,
      show g + 2 = (g + 1) + 1 from rfl, orLoop_stop (g + 1) _ _ (by simp)]
  have himp : parse_implies (g + 4) (rTokens e) = .ok (e, []) := by
    rw [show g + 4 = (g + 3) + 1 from rfl, parse_implies_step (g + 3) _ _ e hor,
      show g + 3 = (g + 2) + 1 from rfl, impliesLoop_stop (g + 2) _ _ (by simp)]
  rw [show g + 5 = (g + 4) + 1 from rfl, parse_iff_step (g + 4) _ _ e himp,
    show g + 4 = (g + 3) + 1 from rfl, iffLoop_stop (g + 3) _ _ (by simp)]

theorem str_no_none :
    ∀ (e : Expr) (t : String), Expr.str e = some t → ∀ n ∈ e.vars, n ≠ none
  | .var name, t, ht => by
    intro n hn
    simp only [Expr.vars, List.mem_singleton] at hn
    subst hn
    simp only [Expr.str] at ht
    rw [ht]
    simp
  | .not e, t, ht => by
    simp only [Expr.str] at ht
    rcases Option.map_eq_some'.mp ht with ⟨s0, hs0, rfl⟩
    exact str_no_none e s0 hs0
  | .and l r, t, ht => by
    simp only [Expr.str] at ht
    rcases Option.bind_eq_some.mp ht with ⟨ls, hls, ht2⟩
    rcases Option.map_eq_some'.mp ht2 with ⟨rs, hrs, rfl⟩
    intro n hn
    simp only [Expr.vars] at hn
    rcases List.mem_union_iff.mp hn with h | h
    · exact str_no_none l ls hls n h
    · exact str_no_none r rs hrs n h
  | .or l r, t, ht => by
    simp only [Expr.str] at ht
    rcases Option.bind_eq_some.mp ht with ⟨ls, hls, ht2⟩
    rcases Option.map_eq_some'.mp ht2 with ⟨rs, hrs, rfl⟩
    intro n hn
    simp only [Expr.vars] at hn
    rcases List.mem_union_iff.mp hn with h | h
    · exact str_no_none l ls hls n h
    · exact str_no_none r rs hrs n h
  | .implies l r, t, ht => by
    simp only [Expr.str] at ht
    rcases Option.bind_eq_some.mp ht with ⟨ls, hls, ht2⟩
    rcases Option.map_eq_some'.mp ht2 with ⟨rs, hrs, rfl⟩
    intro n hn
    simp only [Expr.vars] at hn
    rcases List.mem_union_iff.mp hn with h | h
    · exact str_no_none l ls hls n h
    · exact str_no_none r rs hrs n h
  | .iff l r, t, ht => by
    simp only [Expr.str] at ht
    rcases Option.bind_eq_some.mp ht with ⟨ls, hls, ht2⟩
    rcases Option.map_eq_some'.mp ht2 with ⟨rs, hrs, rfl⟩
    intro n hn
    simp only [Expr.vars] at hn
    rcases List.mem_union_iff.mp hn with h | h
    · exact str_no_none l ls hls n h
    · exact str_no_none r rs hrs n h

theorem bigTok_goodTok {u : String} (hb : bigTok u) (h1 : u ≠ "(") (h2 : u ≠ "~") :
    goodTok u := by
  rcases hb with hop | hid
  · simp only [List.mem_cons, List.not_mem_nil, or_false] at hop
    rcases hop with rfl | rfl | rfl | rfl | rfl | rfl | rfl
    · exact absurd rfl h2
    · exact .inl (by simp)
    · exact .inl (by simp)
    · exact absurd rfl h1
    · exact .inl (by simp)
    · exact .inl (by simp)
    · exact .inl (by simp)
  · exact .inr hid

theorem rTokens_length (e : Expr) (hg : goodExpr e) :
    e.size ≤ (rTokens e).length := by
  induction e with
  | var name =>
    obtain ⟨u, rfl, _⟩ := hg name (by simp [Expr.vars])
    simp [rTokens, Expr.size]
  | not e ihe =>
    have := ihe fun n hn => hg n hn
    simp only [rTokens, Expr.size, List.length_cons]
    omega
  | and l r ihl ihr =>
    have h1 := ihl fun n hn => hg n (by simp [Expr.vars, List.mem_union_iff, hn])
    have h2 := ihr fun n hn => hg n (by simp [Expr.vars, List.mem_union_iff, hn])
    simp only [rTokens, Expr.size, List.length_cons, List.length_append]
    omega
  | or l r ihl ihr =>
    have h1 := ihl fun n hn => hg n (by simp [Expr.vars, List.mem_union_iff, hn])
    have h2 := ihr fun n hn => hg n (by simp [Expr.vars, List.mem_union_iff, hn])
    simp only [rTokens, Expr.size, List.length_cons, List.length_append]
    omega
  | implies l r ihl ihr =>
    have h1 := ihl fun n hn => hg n (by simp [Expr.vars, List.mem_union_iff, hn])
    have h2 := ihr fun n hn => hg n (by simp [Expr.vars, List.mem_union_iff, hn])
    simp only [rTokens, Expr.size, List.length_cons, List.length_append]
    omega
  | iff l r ihl ihr =>
    have h1 := ihl fun n hn => hg n (by simp [Expr.vars, List.mem_union_iff, hn])
    have h2 := ihr fun n hn => hg n (by simp [Expr.vars, List.mem_union_iff, hn])
    simp only [rTokens, Expr.size, List.length_cons, List.length_append]
    omega

/-- The composite `render(parse(tokenize(s)))` of claim C6: `none` when
parsing raises (`SyntaxError`) or rendering raises (`TypeError` on
`Var(None)`). -/
def canon (s : String) : Option String :=
  match parseFormula s with
  | .ok e => e.str
  | .error _ => none

/-! ### Claim C6 -/

/-- Claim C6: for every valid formula string `s` — one on which the pipeline
`render(parse(tokenize(s)))` succeeds, producing `t` — re-parsing the fully
parenthesized canonical rendering yields an AST with the same rendering:
`render(parse(tokenize(render(parse(tokenize(s)))))) = render(parse(tokenize(s)))`,
i.e. `canon t = some t = canon s`. -/
theorem canon_render_idempotent (s t : String) (h : canon s = some t) :
    canon t = some t := by
  rcases hp : parseTokens (tokenize s) with m | ⟨e, rest0⟩
  · rw [canon, parseFormula, hp] at h
    simp at h
  · rw [canon, parseFormula, hp] at h
    -- h : Expr.str e = some t
    have hgood : goodTokens (tokenize s) := fun u hu => tokenize_bigTok s u hu
    have hnice : niceVars e :=
      ((parse_inv (10 * (tokenize s).length + 10)).2.2.2.2.2.2.2.2.2
        (tokenize s) e rest0 hgood hp).2
    have hnone := str_no_none e t h
    have hge : goodExpr e := by
      intro n hn
      rcases hnice n hn with rfl | ⟨u, rfl, hb, h1, h2⟩
      · exact absurd rfl (hnone none hn)
      · exact ⟨u, rfl, bigTok_goodTok hb h1 h2⟩
    have htok : tokenize t = rTokens e := by
      have := strTokens e hge t h [] (.inl rfl)
      rw [List.append_nil] at this
      rw [show tokenize t = tokenizeChars t.data from rfl, this]
      simp [tokenizeChars, tokenizeAux]
    have hparse : parseTokens (tokenize t) = .ok (e, []) := by
      rw [htok, parseTokens]
      exact parse_iff_rTokens e hge _
        (by have := rTokens_length e hge; omega)
    rw [canon, parseFormula, hparse]
    exact h

/-- Witness for claim C6's theorem: `canon "p -> q" = some "(p -> q)"`, and
applying the theorem yields `canon "(p -> q)" = some "(p -> q)"`. -/
theorem canon_render_idempotent_witness :
    canon "(p -> q)" = some "(p -> q)" :=
  canon_render_idempotent "p -> q" "(p -> q)" (by decide)

end LogicTable
